import Mathlib

/-!
# changelogger: log parser, remote-URL resolution and Markdown renderer

A shallow embedding of `main.go`.  Go strings are modelled as lists of
characters, the `map[string]*Tag` as an association list with unique keys, and
the two ways the program can stop early are kept apart:

* `Failure.fatal msg`: `handleError(msg, _)`, a logged message followed by
  `os.Exit(1)`;
* `Failure.indexOutOfRange` / `Failure.nilDereference`: a Go run-time panic.

The three regular expressions of the program are fixed patterns; each one is
modelled by a matcher that follows the leftmost-first (greedy, backtracking
order) semantics of Go's `regexp` for that pattern.
-/

set_option autoImplicit false
set_option maxRecDepth 16384

namespace Changelogger

/-- A Go string, as its sequence of characters. -/
abbrev Str := List Char

/-- How the process can stop before a function returns. -/
inductive Failure where
  /-- The handled path `handleError(msg, _)`: log `msg`, then `os.Exit(1)`. -/
  | fatal (msg : String)
  /-- Run-time panic: slice index out of range. -/
  | indexOutOfRange
  /-- Run-time panic: field access through a nil pointer. -/
  | nilDereference
  deriving DecidableEq, Repr

/-- The function `handleError`: the message is logged and the process exits
with status 1, so nothing after the call runs. -/
def handleError {α : Type} (message : String) : Except Failure α :=
  .error (.fatal message)

/-- The exit status of the process for each way of stopping: 1 from
`os.Exit(1)`, 2 from the Go run time after a panic. -/
def exitStatus : Failure → Nat
  | .fatal _ => 1
  | .indexOutOfRange => 2
  | .nilDereference => 2

/-- The struct `LogLine` of `main.go`. -/
structure LogLine where
  Date : Str
  Message : Str
  PrNumber : Str
  deriving DecidableEq, Repr

/-- The struct `Tag` of `main.go`. -/
structure Tag where
  Date : Str
  Logs : List LogLine
  Value : Str
  deriving DecidableEq, Repr

/-- The map `logData : map[string]*Tag`, as an association list. -/
abbrev LogData := List (Str × Tag)

/-- The map read `logData[k]`; `none` is the nil pointer of an absent key. -/
def mapGet : LogData → Str → Option Tag
  | [], _ => none
  | (k1, v) :: m, k => if k1 = k then some v else mapGet m k

/-- The map write `logData[k] = v`. -/
def mapSet : LogData → Str → Tag → LogData
  | [], k, v => [(k, v)]
  | (k1, v1) :: m, k, v => if k1 = k then (k, v) :: m else (k1, v1) :: mapSet m k v

/-! ## Library functions used by the program -/

/-- The predicate `unicode.IsSpace`, which `strings.TrimSpace` trims by. -/
def isSpace (c : Char) : Bool :=
  let n := c.toNat
  n == 9 || n == 10 || n == 11 || n == 12 || n == 13 || n == 32 ||
  n == 0x85 || n == 0xA0 || n == 0x1680 || (0x2000 ≤ n && n ≤ 0x200A) ||
  n == 0x2028 || n == 0x2029 || n == 0x202F || n == 0x205F || n == 0x3000

/-- The function `strings.TrimSpace`. -/
def TrimSpace (s : Str) : Str :=
  ((s.dropWhile isSpace).reverse.dropWhile isSpace).reverse

/-- The call `strings.Split(s, "\n")`. -/
def splitLines : Str → List Str
  | [] => [[]]
  | c :: cs =>
    if c = '\n' then [] :: splitLines cs
    else
      match splitLines cs with
      | [] => [[c]]
      | l :: ls => (c :: l) :: ls

/-- Splitting at the pattern `\*` with at most `k` cuts left; the text after
the last cut is kept whole. -/
def splitStarAux : Nat → Str → List Str
  | _, [] => [[]]
  | 0, c :: cs => [c :: cs]
  | k + 1, c :: cs =>
    if c = '*' then [] :: splitStarAux k cs
    else
      match splitStarAux (k + 1) cs with
      | [] => [[c]]
      | l :: ls => (c :: l) :: ls

/-- The call `splitRegex.Split(line, n)` for `splitRegex = \*` and `n ≥ 0`:
no field for `n = 0`, otherwise at most `n` fields. -/
def splitStar : Nat → Str → List Str
  | 0, _ => []
  | n + 1, s => splitStarAux n s

/-- Matching a literal at the head of the text: the rest after it. -/
def dropLit : Str → Str → Option Str
  | [], s => some s
  | _ :: _, [] => none
  | a :: p, b :: s => if a = b then dropLit p s else none

/-- The class `[0-9]`: the code points U+0030 to U+0039. -/
def isDigit (c : Char) : Bool := 0x30 ≤ c.toNat && c.toNat ≤ 0x39

/-- The class `[0-9\.]`. -/
def isVersionChar (c : Char) : Bool := isDigit c || c = '.'

/-- A greedy, non-empty run `[...]+` at the head of the text (nothing follows
it in the patterns here, so the longest run is the match). -/
def runOf (p : Char → Bool) (s : Str) : Option Str :=
  match s.takeWhile p with
  | [] => none
  | c :: cs => some (c :: cs)

/-- The pattern `Merge pull request #([0-9]+)` matched at the head of the
text: capture group 1. -/
def prMatchAt (s : Str) : Option Str :=
  (dropLit "Merge pull request #".toList s).bind (runOf isDigit)

/-- The call `prRegex.FindStringSubmatch(s)`, reduced to capture group 1,
`none` for a nil result: the leftmost match. -/
def findPr : Str → Option Str
  | [] => prMatchAt []
  | c :: cs =>
    match prMatchAt (c :: cs) with
    | some d => some d
    | none => findPr cs

/-- The group `(v?[0-9\.]+)` at the head of the text: first with the optional
`v` taken, then without it. -/
def versionAt (s : Str) : Option Str :=
  match (match s with
         | c :: r => if c = 'v' then (runOf isVersionChar r).map (c :: ·) else none
         | [] => none) with
  | some t => some t
  | none => runOf isVersionChar s

/-- The pattern `tag: (v?[0-9\.]+)` matched at the head of the text: capture
group 1. -/
def tagMatchAt (s : Str) : Option Str :=
  (dropLit "tag: ".toList s).bind versionAt

/-- The call `tagRegex.FindStringSubmatch(s)`, reduced to capture group 1,
`none` for a nil result: the leftmost match. -/
def findTag : Str → Option Str
  | [] => tagMatchAt []
  | c :: cs =>
    match tagMatchAt (c :: cs) with
    | some t => some t
    | none => findTag cs

/-- The tail `(.*)\.git` of the URL pattern at the head of the text: the
greedy group, i.e. the longest text without a line break after which `.git`
follows. -/
def captureBeforeGit : Str → Option Str
  | [] => none
  | c :: cs =>
    match (if c = '\n' then none else (captureBeforeGit cs).map (c :: ·)) with
    | some g => some g
    | none => (dropLit ".git".toList (c :: cs)).map (fun _ => [])

/-- The part `(https://github\.com/|git@github\.com:)(.*)\.git` at the head of
the text: capture group 2. -/
def urlAltAt (s : Str) : Option Str :=
  match (dropLit "https://github.com/".toList s).bind captureBeforeGit with
  | some g => some g
  | none => (dropLit "git@github.com:".toList s).bind captureBeforeGit

/-- The whole pattern `.*(https://github\.com/|git@github\.com:)(.*)\.git` at
the head of the text: the leading `.*` is greedy and stops at a line break. -/
def urlMatchAt : Str → Option Str
  | [] => urlAltAt []
  | c :: cs =>
    match (if c = '\n' then none else urlMatchAt cs) with
    | some g => some g
    | none => urlAltAt (c :: cs)

/-- The call `urlRegex.FindStringSubmatch(s)`, reduced to capture group 2,
`none` for a nil result: the leftmost match. -/
def findUrl : Str → Option Str
  | [] => urlMatchAt []
  | c :: cs =>
    match urlMatchAt (c :: cs) with
    | some g => some g
    | none => findUrl cs

/-! ## The log parser `getContent` -/

/-- The local variables of `getContent` that live across loop iterations. -/
structure ParseState where
  currentTag : Str
  tagList : List Str
  logData : LogData
  deriving DecidableEq, Repr

/-- The state before the first line: `currentTag := ""`, `tagList := []string{}`,
`logData := make(map[string]*Tag)`. -/
def initState : ParseState := ⟨[], [], []⟩

/-- Lines 107-110: a matched tag pattern makes its (trimmed) capture the
current tag and appends it to the tag list. -/
def trackTag (st : ParseState) (newTag : Option Str) : ParseState :=
  match newTag with
  | some t => ⟨TrimSpace t, st.tagList ++ [TrimSpace t], st.logData⟩
  | none => st

/-- Lines 127-131: create the `Tag` of `currentTag` when the map has none,
dated by this log line, then append the log line to it. -/
def appendLog (logData : LogData) (currentTag : Str) (logLine : LogLine) :
    Except Failure LogData :=
  let logData1 :=
    match mapGet logData currentTag with
    | none => mapSet logData currentTag ⟨logLine.Date, [], []⟩
    | some _ => logData
  match mapGet logData1 currentTag with
  | none => .error .nilDereference
  | some tag => .ok (mapSet logData1 currentTag ⟨tag.Date, tag.Logs ++ [logLine], tag.Value⟩)

/-- One iteration of the loop `for _, line := range logLines` of `getContent`
(the `fmt.Println(line)` echo left out). -/
def processLine (st : ParseState) (line : Str) : Except Failure ParseState :=
  let splitLine := splitStar 6 line
  match splitLine[2]? with
  | none => .error .indexOutOfRange
  | some field2 =>
    let newTag := findTag field2
    if newTag = none ∧ st.currentTag = [] then
      handleError "Commit not after a tag"
    else
      let st1 := trackTag st newTag
      match splitLine[1]? with
      | none => .error .indexOutOfRange
      | some field1 =>
        match findPr field1 with
        | none => .ok st1
        | some pr =>
          match splitLine[0]?, splitLine[3]? with
          | some field0, some field3 =>
            match appendLog st1.logData st1.currentTag
                ⟨TrimSpace field3, TrimSpace field0, TrimSpace pr⟩ with
            | .error e => .error e
            | .ok logData => .ok ⟨st1.currentTag, st1.tagList, logData⟩
          | _, _ => .error .indexOutOfRange

/-- The loop of `getContent` over the remaining lines. -/
def processLines : ParseState → List Str → Except Failure ParseState
  | st, [] => .ok st
  | st, line :: rest =>
    match processLine st line with
    | .error e => .error e
    | .ok st1 => processLines st1 rest

/-- The function `getContent`, given the text `logCommand` that `runCommand`
returned for the `git log` call. -/
def getContent (logCommand : Str) : Except Failure (List Str × LogData) :=
  match processLines initState (splitLines logCommand) with
  | .error e => .error e
  | .ok st => .ok (st.tagList, st.logData)

/-! ## Remote URL and first commit -/

/-- The function `getGithubRepositoryUrl`, given the text `fetchUrlCommand`
that `runCommand` returned; indexing the nil result of a failed match with
`[2]` panics. -/
def getGithubRepositoryUrl (fetchUrlCommand : Str) : Except Failure Str :=
  match findUrl fetchUrlCommand with
  | none => .error .indexOutOfRange
  | some repo => .ok ("https://github.com/".toList ++ repo)

/-- The function `getFirstCommit`, given the text that `runCommand` returned. -/
def getFirstCommit (revListCommand : Str) : Str := TrimSpace revListCommand

/-! ## The renderer `generate` -/

/-- The heading written first for a tag. -/
def headingText (baseUrl current : Str) (tagContent : Tag) : Str :=
  "## [".toList ++ current ++ "](".toList ++ baseUrl ++ "/tree/".toList ++ current ++
    ") (".toList ++ tagContent.Date ++ ")\n\n".toList

/-- The comparison line written second; `tags` is what is left of the
sequence after `current` was taken off. -/
def compareText (baseUrl firstCommit current : Str) (tags : List Str) : Str :=
  match tags with
  | next :: _ =>
    "[Full Changelog](".toList ++ baseUrl ++ "/compare/".toList ++ next ++ "...".toList ++
      current ++ ")\n\n".toList
  | [] =>
    "[Full Changelog](".toList ++ baseUrl ++ "/compare/".toList ++ firstCommit ++
      "...".toList ++ current ++ ")\n\n".toList

/-- The two writes made for one `LogLine`. -/
def bulletText (baseUrl : Str) (line : LogLine) : Str :=
  ("- ".toList ++ line.Message) ++
    (" [\\#".toList ++ line.PrNumber ++ "](".toList ++ baseUrl ++ "/pull/".toList ++
      line.PrNumber ++ ")\n".toList)

/-- The inner loop `for _, line := range tagContent.Logs`. -/
def bulletsText (baseUrl : Str) : List LogLine → Str
  | [] => []
  | line :: rest => bulletText baseUrl line ++ bulletsText baseUrl rest

/-- Everything one iteration of the outer loop writes. -/
def sectionText (baseUrl firstCommit current : Str) (tags : List Str) (tagContent : Tag) : Str :=
  headingText baseUrl current tagContent ++ compareText baseUrl firstCommit current tags ++
    bulletsText baseUrl tagContent.Logs ++ "\n\n".toList

/-- The loop `for len(tags) > 0` of `generate`; `fh` is the text written to
the file so far.  It returns the text written and how the loop ended. -/
def generateLoop (baseUrl firstCommit : Str) (logData : LogData) :
    List Str → Str → Str × Option Failure
  | [], fh => (fh, none)
  | current :: tags, fh =>
    match mapGet logData current with
    | none => (fh, some .nilDereference)
    | some tagContent =>
      generateLoop baseUrl firstCommit logData tags
        (fh ++ sectionText baseUrl firstCommit current tags tagContent)

/-- The function `generate`: `fh` is the text already in the file,
`revListCommand` and `fetchUrlCommand` are the texts `runCommand` returned. -/
def generate (fh : Str) (tagList : List Str) (logData : LogData)
    (revListCommand fetchUrlCommand : Str) : Str × Option Failure :=
  let firstCommit := getFirstCommit revListCommand
  match getGithubRepositoryUrl fetchUrlCommand with
  | .error e => (fh, some e)
  | .ok baseUrl => generateLoop baseUrl firstCommit logData tagList fh

/-! ## Argument handling and `main` -/

/-- How the process can end inside `handleArgs`: through `handleError`, or
through `help`, which prints the usage line and calls `os.Exit(0)`. -/
inductive Stop where
  /-- A stop through `handleError` (or a panic). -/
  | failure (f : Failure)
  /-- The stop of `help`: `stdout` is what was printed before `os.Exit(0)`. -/
  | usage (stdout : Str)
  deriving DecidableEq, Repr

/-- The exit status of the process for each stop. -/
def stopStatus : Stop → Nat
  | .failure f => exitStatus f
  | .usage _ => 0

/-- The function `help`: `fmt.Println` of the usage line, then `os.Exit(0)`. -/
def help {α : Type} : Except Stop α :=
  .error (.usage "> changelog-generator generate\n".toList)

/-- The function `handleArgs`; `gitDirReadable` tells whether
`os.ReadDir(".git")` returns without error. -/
def handleArgs (args : List Str) (gitDirReadable : Bool) : Except Stop Unit :=
  match args with
  | [] => .error (.failure (.fatal "Missing mandatory parameters"))
  | arg0 :: _ =>
    if arg0 = "help".toList ∨ arg0 = "-h".toList then
      help
    else if arg0 ≠ "generate".toList ∧ arg0 ≠ "-g".toList then
      .error (.failure (.fatal "Unsupported command"))
    else if gitDirReadable = false then
      .error (.failure (.fatal "Unable to find git folder"))
    else
      .ok ()

/-- Lines 45-48 of `main`, run once `handleArgs` has returned and the file is
open and truncated: the header is written, the log is parsed and rendered.  The
result is the text of `CHANGELOG.md` and how the run ended. -/
def main (logCommand revListCommand fetchUrlCommand : Str) : Str × Option Failure :=
  let fh := "# Changelog\n\n".toList
  match getContent logCommand with
  | .error e => (fh, some e)
  | .ok (tagList, logData) => generate fh tagList logData revListCommand fetchUrlCommand

/-- The variables `generate` works on: the caller's tag sequence and mapping,
and the text of the file. -/
structure RenderVars where
  tagList : List Str
  logData : LogData
  fh : Str
  deriving DecidableEq, Repr

/-- The loop of `generate` as a step on all variables: `tags` is the local
copy that the loop shortens; the loop reads `logData` and writes to `fh` only. -/
def generateLoopVars (baseUrl firstCommit : Str) :
    List Str → RenderVars → RenderVars × Option Failure
  | [], vars => (vars, none)
  | current :: tags, vars =>
    match mapGet vars.logData current with
    | none => (vars, some .nilDereference)
    | some tagContent =>
      generateLoopVars baseUrl firstCommit tags
        ⟨vars.tagList, vars.logData,
          vars.fh ++ sectionText baseUrl firstCommit current tags tagContent⟩

/-- The function `generate` as a step on all variables: the local `tags`
starts as a copy of `tagList` (line 57). -/
def generateVars (vars : RenderVars) (revListCommand fetchUrlCommand : Str) :
    RenderVars × Option Failure :=
  let firstCommit := getFirstCommit revListCommand
  match getGithubRepositoryUrl fetchUrlCommand with
  | .error e => (vars, some e)
  | .ok baseUrl => generateLoopVars baseUrl firstCommit vars.tagList vars

/-! ## Vocabulary of the specification -/

/-- Equality of results is decidable, so that runs on concrete inputs can be
evaluated. -/
instance exceptDecEq {ε α : Type} [DecidableEq ε] [DecidableEq α] : DecidableEq (Except ε α)
  | .ok a, .ok b =>
    if h : a = b then isTrue (by rw [h]) else isFalse (fun h1 => h (by cases h1; rfl))
  | .error a, .error b =>
    if h : a = b then isTrue (by rw [h]) else isFalse (fun h1 => h (by cases h1; rfl))
  | .ok _, .error _ => isFalse (fun h => by cases h)
  | .error _, .ok _ => isFalse (fun h => by cases h)

/-- The shape `^[0-9]+$`. -/
def matchesPrNumber (s : Str) : Bool := s ≠ [] && s.all isDigit

/-- The shape `^v?[0-9.]+$`. -/
def matchesTagName (s : Str) : Bool :=
  (s ≠ [] && s.all isVersionChar) ||
    (match s with
     | c :: r => c = 'v' && (r ≠ [] && r.all isVersionChar)
     | [] => false)

/-- A well-formed line: the bounded split gives at least the four fields
body, subject, decoration and date. -/
def wellFormedLine (line : Str) : Prop := 4 ≤ (splitStar 6 line).length

instance (line : Str) : Decidable (wellFormedLine line) := by
  unfold wellFormedLine; infer_instance

/-- The tag name a line carries: the capture of the tag pattern in its
decoration field (field 2), if the line has that field and the pattern matches. -/
def capturedTag (line : Str) : Option Str := ((splitStar 6 line)[2]?).bind findTag

/-- The pull-request number a line carries: the capture of the merge pattern
in its subject field (field 1). -/
def capturedPr (line : Str) : Option Str := ((splitStar 6 line)[1]?).bind findPr

/-- A tag-decorated line. -/
def isTagLine (line : Str) : Bool := (capturedTag line).isSome

/-- A merge-commit line. -/
def isMergeLine (line : Str) : Bool := (capturedPr line).isSome

/-- Scanning top to bottom, a tag-decorated line is met before any merge-commit
line that is not itself tag-decorated. -/
def tagBeforeMerge : List Str → Bool
  | [] => false
  | line :: rest => isTagLine line || (!isMergeLine line && tagBeforeMerge rest)

/-- The tag names captured on the tag-decorated lines of a raw log, one per
such line, top to bottom. -/
def capturedTags (logCommand : Str) : List Str :=
  (splitLines logCommand).filterMap capturedTag

/-- The invariant of the parser loop on the shapes of names and numbers: the
current tag is empty or a tag name, and so are all names in the tag list and
all keys of the map; every stored pull-request number is a number. -/
def shapesOk (st : ParseState) : Prop :=
  (st.currentTag = [] ∨ matchesTagName st.currentTag = true) ∧
  (∀ t ∈ st.tagList, matchesTagName t = true) ∧
  (∀ k tag, (k, tag) ∈ st.logData →
    matchesTagName k = true ∧ ∀ e ∈ tag.Logs, matchesPrNumber e.PrNumber = true)

/-- The literal `lit` occurs somewhere in the text. -/
def containsLit (lit : Str) : Str → Bool
  | [] => (dropLit lit []).isSome
  | c :: cs => (dropLit lit (c :: cs)).isSome || containsLit lit cs

/-- The comparison link the specification asks for at position `i` of the tag
sequence: against tag `i + 1` when there is one, else against the first commit. -/
def comparisonLink (baseUrl firstCommit : Str) (tags : List Str) (i : Nat) : Str :=
  "[Full Changelog](".toList ++ baseUrl ++ "/compare/".toList ++
    (match tags[i + 1]? with
     | some older => older
     | none => firstCommit) ++
    "...".toList ++ tags.getD i [] ++ ")".toList

/-- The heading the specification asks for: the tag linked to its tree,
then its date in parentheses, then a blank line. -/
def specHeading (baseUrl tag date : Str) : Str :=
  "## [".toList ++ tag ++ "](".toList ++ baseUrl ++ "/tree/".toList ++ tag ++ ") (".toList ++
    date ++ ")\n\n".toList

/-- The bullet the specification asks for. -/
def specBullet (baseUrl : Str) (entry : LogLine) : Str :=
  "- ".toList ++ entry.Message ++ " [\\#".toList ++ entry.PrNumber ++ "](".toList ++ baseUrl ++
    "/pull/".toList ++ entry.PrNumber ++ ")\n".toList

/-- The section the specification asks for at position `i` of the tag
sequence: heading, comparison link and blank line, one bullet per entry in
stored order, separator. -/
def specSection (baseUrl firstCommit : Str) (logData : LogData) (tags : List Str)
    (i : Nat) : Str :=
  match tags[i]? with
  | none => []
  | some tag =>
    match mapGet logData tag with
    | none => []
    | some record =>
      specHeading baseUrl tag record.Date ++
        (comparisonLink baseUrl firstCommit tags i ++ "\n\n".toList) ++
        (record.Logs.map (specBullet baseUrl)).flatten ++ "\n\n".toList

/-- The text of `CHANGELOG.md` the specification asks for: the header once,
then the sections in the order of the tag sequence. -/
def specChangelog (baseUrl firstCommit : Str) (logData : LogData) (tags : List Str) : Str :=
  "# Changelog\n\n".toList ++
    ((List.range tags.length).map (specSection baseUrl firstCommit logData tags)).flatten

/-- The entries stored under a tag name: those of its record, none when the
mapping has no record for the name. -/
def logsOf (logData : LogData) (tag : Str) : List LogLine :=
  match mapGet logData tag with
  | some record => record.Logs
  | none => []

/-- The entry the specification builds from a merge-commit line: date =
trimmed field 3, message = trimmed field 0, number = the captured digits. -/
def entryOf (line pr : Str) : LogLine :=
  ⟨TrimSpace ((splitStar 6 line).getD 3 []), TrimSpace ((splitStar 6 line).getD 0 []), pr⟩

/-- The entries attributed to the tag name `tag` by the lines, top to bottom:
one per merge-commit line whose current tag (the name captured on the nearest
tag-decorated line at or above it; `current` above the first line) is `tag`. -/
def entriesOf (tag : Str) : Str → List Str → List LogLine
  | _, [] => []
  | current, line :: rest =>
    (match capturedPr line with
     | some pr => if (capturedTag line).getD current = tag then [entryOf line pr] else []
     | none => []) ++
      entriesOf tag ((capturedTag line).getD current) rest

/-- The invariant of the parser loop on the records: keys are distinct, every
key is in the tag list, and every record has a first entry, which dates it. -/
def recordsOk (st : ParseState) : Prop :=
  (st.logData.map Prod.fst).Nodup ∧
  (st.currentTag = [] ∨ st.currentTag ∈ st.tagList) ∧
  (∀ k tag, (k, tag) ∈ st.logData →
    k ∈ st.tagList ∧ ∃ e rest, tag.Logs = e :: rest ∧ tag.Date = e.Date)

/-- A raw log to run the parser on: a tagged pull-request merge, an untagged
one, a tagged merge that is no pull-request merge, and an untagged
pull-request merge with blanks around its body. -/
def sampleLog : Str :=
  ("Add parser*Merge pull request #12 from x/parser* (tag: v2.0)*2023-02-01\n" ++
    "Fix bug*Merge pull request #7 from y/fix**2023-01-20\n" ++
    "*Merge branch hotfix* (tag: v1.0)*2023-01-15\n" ++
    " First release *Merge pull request #3 from z/init**2023-01-10").toList

/-- The tag sequence the parser returns for `sampleLog`. -/
def sampleTags : List Str := ["v2.0".toList, "v1.0".toList]

/-- The mapping the parser returns for `sampleLog`. -/
def sampleData : LogData :=
  [("v2.0".toList,
      ⟨"2023-02-01".toList,
        [⟨"2023-02-01".toList, "Add parser".toList, "12".toList⟩,
         ⟨"2023-01-20".toList, "Fix bug".toList, "7".toList⟩], []⟩),
   ("v1.0".toList,
      ⟨"2023-01-10".toList,
        [⟨"2023-01-10".toList, "First release".toList, "3".toList⟩], []⟩)]

/-- The number of places of the text at which the literal `lit` occurs. -/
def countLit (lit : Str) : Str → Nat
  | [] => if (dropLit lit []).isSome then 1 else 0
  | c :: cs => (if (dropLit lit (c :: cs)).isSome then 1 else 0) + countLit lit cs

/-- Scanning a text for a `g` directly followed by a line break, as the header
`# Changelog` and its blank line end: `true` when there is none; `afterG` tells
whether the character before the text is a `g`. -/
def scanG : Bool → Str → Bool
  | _, [] => true
  | afterG, c :: cs => !(afterG && c = '\n') && scanG (c = 'g') cs

/-- Whether a text, read after a character that is (or is not) a `g`, ends
with a `g`. -/
def endsG : Bool → Str → Bool
  | afterG, [] => afterG
  | _, c :: cs => endsG (c = 'g') cs

/-! ## Splitting, trimming and the character classes -/

theorem splitLines_of_no_newline (s : Str) (h : '\n' ∉ s) : splitLines s = [s] := by
  induction s with
  | nil => rfl
  | cons c cs ih =>
    simp only [List.mem_cons, not_or] at h
    have hc : c ≠ '\n' := fun e => h.1 e.symm
    simp [splitLines, hc, ih h.2]

theorem splitStarAux_of_no_star (k : Nat) (s : Str) (h : '*' ∉ s) : splitStarAux k s = [s] := by
  induction s with
  | nil => cases k <;> rfl
  | cons c cs ih =>
    simp only [List.mem_cons, not_or] at h
    have hc : c ≠ '*' := fun e => h.1 e.symm
    cases k with
    | zero => rfl
    | succ k => simp [splitStarAux, hc, ih h.2]

theorem splitStarAux_append_star (k : Nat) (a rest : Str) (h : '*' ∉ a) :
    splitStarAux (k + 1) (a ++ '*' :: rest) = a :: splitStarAux k rest := by
  induction a with
  | nil => simp [splitStarAux]
  | cons c cs ih =>
    simp only [List.mem_cons, not_or] at h
    have hc : c ≠ '*' := fun e => h.1 e.symm
    simp [splitStarAux, hc, ih h.2]

theorem splitStar_four_fields (f0 f1 f2 f3 : Str) (h0 : '*' ∉ f0) (h1 : '*' ∉ f1)
    (h2 : '*' ∉ f2) (h3 : '*' ∉ f3) :
    splitStar 6 (f0 ++ '*' :: (f1 ++ '*' :: (f2 ++ '*' :: f3))) = [f0, f1, f2, f3] := by
  simp only [splitStar]
  rw [splitStarAux_append_star _ _ _ h0, splitStarAux_append_star _ _ _ h1,
    splitStarAux_append_star _ _ _ h2, splitStarAux_of_no_star _ _ h3]

theorem dropWhile_of_head_not (p : Char → Bool) (s : Str) (h : ∀ c ∈ s, p c = false) :
    s.dropWhile p = s := by
  cases s with
  | nil => rfl
  | cons c cs => simp [List.dropWhile, h c (List.mem_cons_self _ _)]

theorem TrimSpace_of_no_space (s : Str) (h : ∀ c ∈ s, isSpace c = false) : TrimSpace s = s := by
  unfold TrimSpace
  rw [dropWhile_of_head_not _ _ h, dropWhile_of_head_not, List.reverse_reverse]
  intro c hc
  exact h c (List.mem_reverse.mp hc)

theorem isSpace_of_isDigit (c : Char) (h : isDigit c = true) : isSpace c = false := by
  simp only [isDigit, Bool.and_eq_true, decide_eq_true_eq] at h
  simp only [isSpace, Bool.or_eq_false_iff, Bool.and_eq_false_iff, beq_eq_false_iff_ne,
    decide_eq_false_iff_not]
  omega

theorem isSpace_of_isVersionChar (c : Char) (h : isVersionChar c = true) : isSpace c = false := by
  simp only [isVersionChar, Bool.or_eq_true, decide_eq_true_eq] at h
  rcases h with h | h
  · exact isSpace_of_isDigit c h
  · subst h; decide

/-! ## What the patterns capture -/

theorem runOf_some (p : Char → Bool) (s r : Str) (h : runOf p s = some r) :
    r ≠ [] ∧ ∀ c ∈ r, p c = true := by
  unfold runOf at h
  split at h
  · cases h
  · rename_i c cs heq
    cases h
    refine ⟨by simp, ?_⟩
    intro x hx
    rw [← heq] at hx
    exact (List.mem_takeWhile_imp hx)

theorem findPr_some (s n : Str) (h : findPr s = some n) : matchesPrNumber n = true := by
  have key : ∀ t, prMatchAt t = some n → matchesPrNumber n = true := by
    intro t ht
    unfold prMatchAt at ht
    rcases Option.bind_eq_some.mp ht with ⟨r, _, hr⟩
    have := runOf_some _ _ _ hr
    simp [matchesPrNumber, this.1]
    exact this.2
  induction s with
  | nil => exact key _ h
  | cons c cs ih =>
    unfold findPr at h
    split at h
    · cases h; rename_i d hd; exact key _ hd
    · exact ih h

theorem versionAt_some (s v : Str) (h : versionAt s = some v) : matchesTagName v = true := by
  unfold versionAt at h
  split at h
  · rename_i t ht
    cases h
    split at ht
    · rename_i c r
      split at ht
      · rename_i hc
        rcases Option.map_eq_some'.mp ht with ⟨r1, hr1, rfl⟩
        have := runOf_some _ _ _ hr1
        simp [matchesTagName, hc, this.1]
        right
        exact this.2
      · cases ht
    · cases ht
  · have := runOf_some _ _ _ h
    simp [matchesTagName, this.1]
    left
    exact this.2

theorem findTag_some (s v : Str) (h : findTag s = some v) : matchesTagName v = true := by
  have key : ∀ t, tagMatchAt t = some v → matchesTagName v = true := by
    intro t ht
    unfold tagMatchAt at ht
    rcases Option.bind_eq_some.mp ht with ⟨r, _, hr⟩
    exact versionAt_some _ _ hr
  induction s with
  | nil => exact key _ h
  | cons c cs ih =>
    unfold findTag at h
    split at h
    · cases h; rename_i d hd; exact key _ hd
    · exact ih h

theorem matchesPrNumber_iff (s : Str) :
    matchesPrNumber s = true ↔ s ≠ [] ∧ ∀ c ∈ s, isDigit c = true := by
  simp [matchesPrNumber]

theorem matchesTagName_iff (s : Str) :
    matchesTagName s = true ↔
      ∃ r : Str, (s = r ∨ s = 'v' :: r) ∧ r ≠ [] ∧ ∀ c ∈ r, isVersionChar c = true := by
  constructor
  · intro h
    simp only [matchesTagName, Bool.or_eq_true, Bool.and_eq_true, decide_eq_true_eq,
      List.all_eq_true] at h
    rcases h with h | h
    · exact ⟨s, Or.inl rfl, h.1, h.2⟩
    · cases s with
      | nil => simp at h
      | cons c r =>
        simp only [Bool.and_eq_true, decide_eq_true_eq, List.all_eq_true] at h
        exact ⟨r, Or.inr (by rw [h.1]), h.2.1, h.2.2⟩
  · rintro ⟨r, hs | hs, hne, hall⟩
    · subst hs
      simp only [matchesTagName, Bool.or_eq_true, Bool.and_eq_true, decide_eq_true_eq,
        List.all_eq_true]
      exact Or.inl ⟨hne, hall⟩
    · subst hs
      simp only [matchesTagName, Bool.or_eq_true, Bool.and_eq_true, decide_eq_true_eq,
        List.all_eq_true]
      exact Or.inr ⟨trivial, hne, hall⟩

theorem TrimSpace_of_matchesPrNumber (s : Str) (h : matchesPrNumber s = true) :
    TrimSpace s = s := by
  apply TrimSpace_of_no_space
  intro c hc
  exact isSpace_of_isDigit c (((matchesPrNumber_iff s).mp h).2 c hc)

theorem TrimSpace_of_matchesTagName (s : Str) (h : matchesTagName s = true) :
    TrimSpace s = s := by
  apply TrimSpace_of_no_space
  rcases (matchesTagName_iff s).mp h with ⟨r, hs | hs, _, hall⟩
  · subst hs
    intro c hc
    exact isSpace_of_isVersionChar c (hall c hc)
  · subst hs
    intro c hc
    rcases List.mem_cons.mp hc with rfl | hc
    · decide
    · exact isSpace_of_isVersionChar c (hall c hc)

theorem ne_nil_of_matchesTagName (s : Str) (h : matchesTagName s = true) : s ≠ [] := by
  rcases (matchesTagName_iff s).mp h with ⟨r, hs | hs, hne, _⟩
  · subst hs; exact hne
  · subst hs; simp

/-! ## The map and the parser loop -/

theorem mapGet_mapSet_self (m : LogData) (k : Str) (v : Tag) :
    mapGet (mapSet m k v) k = some v := by
  induction m with
  | nil => simp [mapSet, mapGet]
  | cons kv m ih =>
    obtain ⟨k1, v1⟩ := kv
    by_cases hk : k1 = k
    · simp [mapSet, mapGet, hk]
    · simp [mapSet, mapGet, hk, ih]

theorem mapGet_mapSet_ne (m : LogData) (k k2 : Str) (v : Tag) (h : k ≠ k2) :
    mapGet (mapSet m k v) k2 = mapGet m k2 := by
  induction m with
  | nil => simp [mapSet, mapGet, h]
  | cons kv m ih =>
    obtain ⟨k1, v1⟩ := kv
    by_cases hk : k1 = k
    · subst hk; simp [mapSet, mapGet, h]
    · by_cases hk2 : k1 = k2
      · subst hk2; simp [mapSet, mapGet, hk]
      · simp [mapSet, mapGet, hk, hk2, ih]


theorem mem_mapSet (m : LogData) (k : Str) (v : Tag) (kv : Str × Tag)
    (h : kv ∈ mapSet m k v) : kv = (k, v) ∨ kv ∈ m := by
  induction m with
  | nil => simp [mapSet] at h; exact Or.inl h
  | cons kv1 m ih =>
    obtain ⟨k1, v1⟩ := kv1
    simp only [mapSet] at h
    split at h
    · rcases List.mem_cons.mp h with h | h
      · exact Or.inl h
      · exact Or.inr (List.mem_cons_of_mem _ h)
    · rcases List.mem_cons.mp h with h | h
      · exact Or.inr (h ▸ List.mem_cons_self _ _)
      · rcases ih h with h | h
        · exact Or.inl h
        · exact Or.inr (List.mem_cons_of_mem _ h)

theorem mem_of_mapGet (m : LogData) (k : Str) (t : Tag) (h : mapGet m k = some t) :
    (k, t) ∈ m := by
  induction m with
  | nil => simp [mapGet] at h
  | cons kv1 m ih =>
    obtain ⟨k1, v1⟩ := kv1
    simp only [mapGet] at h
    split at h
    · rename_i hk
      cases h
      rw [hk]
      exact List.mem_cons_self _ _
    · exact List.mem_cons_of_mem _ (ih h)

/-- Appending a log line never fails; every record of the new map is an old
one, or the record of `k`, whose log lines are the old ones of `k` and `e`. -/
theorem appendLog_ok (m : LogData) (k : Str) (e : LogLine) :
    ∃ m1, appendLog m k e = .ok m1 ∧
      ∀ k2 t2, (k2, t2) ∈ m1 → (k2, t2) ∈ m ∨
        (k2 = k ∧ ∀ x ∈ t2.Logs, x = e ∨ ∃ t0, (k, t0) ∈ m ∧ x ∈ t0.Logs) := by
  unfold appendLog
  cases hg : mapGet m k with
  | none =>
    simp only [mapGet_mapSet_self]
    refine ⟨_, rfl, ?_⟩
    intro k2 t2 hmem
    rcases mem_mapSet _ _ _ _ hmem with h | h
    · right
      cases h
      exact ⟨rfl, by simp⟩
    · rcases mem_mapSet _ _ _ _ h with h | h
      · right
        cases h
        exact ⟨rfl, by simp⟩
      · exact Or.inl h
  | some tag =>
    simp only [hg]
    refine ⟨_, rfl, ?_⟩
    intro k2 t2 hmem
    rcases mem_mapSet _ _ _ _ hmem with h | h
    · right
      cases h
      refine ⟨rfl, ?_⟩
      intro x hx
      rcases List.mem_append.mp hx with hx | hx
      · exact Or.inr ⟨tag, mem_of_mapGet _ _ _ hg, hx⟩
      · exact Or.inl (by simpa using hx)
    · exact Or.inl h

theorem capturedTag_matches (line t : Str) (h : capturedTag line = some t) :
    matchesTagName t = true := by
  unfold capturedTag at h
  rcases Option.bind_eq_some.mp h with ⟨f, _, hf⟩
  exact findTag_some _ _ hf

theorem capturedPr_matches (line n : Str) (h : capturedPr line = some n) :
    matchesPrNumber n = true := by
  unfold capturedPr at h
  rcases Option.bind_eq_some.mp h with ⟨f, _, hf⟩
  exact findPr_some _ _ hf

theorem trackTag_captured (st : ParseState) (line : Str) :
    trackTag st (capturedTag line) =
      match capturedTag line with
      | some t => ⟨t, st.tagList ++ [t], st.logData⟩
      | none => st := by
  cases h : capturedTag line with
  | none => rfl
  | some t => simp [trackTag, TrimSpace_of_matchesTagName t (capturedTag_matches _ _ h)]

/-- What an iteration that does not stop the program has done. -/
theorem processLine_ok_inv (st st1 : ParseState) (line : Str)
    (h : processLine st line = .ok st1) :
    (capturedTag line = none → st.currentTag ≠ []) ∧
    st1.currentTag = (capturedTag line).getD st.currentTag ∧
    st1.tagList = st.tagList ++ (capturedTag line).toList ∧
    ((capturedPr line = none ∧ st1.logData = st.logData) ∨
      ∃ pr field0 field3, capturedPr line = some pr ∧
        appendLog st.logData st1.currentTag ⟨TrimSpace field3, TrimSpace field0, pr⟩ =
          .ok st1.logData) := by
  unfold processLine at h
  simp only at h
  split at h
  · cases h
  · rename_i field2 h2
    have hct : capturedTag line = findTag field2 := by simp [capturedTag, h2]
    split at h
    · cases h
    · rename_i hguard
      rw [← hct, trackTag_captured] at h
      split at h
      · cases h
      · rename_i field1 h1
        have hcp : capturedPr line = findPr field1 := by simp [capturedPr, h1]
        rw [← hcp] at h
        rw [← hct] at hguard
        have hg : capturedTag line = none → st.currentTag ≠ [] := fun hn hc => hguard ⟨hn, hc⟩
        split at h
        · rename_i hpr
          cases h
          refine ⟨hg, ?_, ?_, Or.inl ⟨hpr, ?_⟩⟩ <;> cases capturedTag line <;> simp
        · rename_i pr hpr
          split at h
          · rename_i field0 field3 _ _
            split at h
            · cases h
            · rename_i logData happ
              cases h
              rw [TrimSpace_of_matchesPrNumber pr (capturedPr_matches _ _ hpr)] at happ
              refine ⟨hg, ?_, ?_, Or.inr ⟨pr, field0, field3, hpr, ?_⟩⟩
              · cases capturedTag line <;> simp
              · cases capturedTag line <;> simp
              · cases hc : capturedTag line <;> simpa [hc] using happ
          · cases h

/-! ## The URL pattern -/

theorem dropLit_eq_some (lit s r : Str) (h : dropLit lit s = some r) : s = lit ++ r := by
  induction lit generalizing s with
  | nil => simp [dropLit] at h; simp [h]
  | cons a lit ih =>
    cases s with
    | nil => simp [dropLit] at h
    | cons b s =>
      simp only [dropLit] at h
      split at h
      · rename_i hab
        rw [hab, ih s h]; rfl
      · cases h

theorem dropLit_append (lit r : Str) : dropLit lit (lit ++ r) = some r := by
  induction lit with
  | nil => simp [dropLit]
  | cons a lit ih => simp [dropLit, ih]

/-- A literal that matches at the head of `x ++ (suffix ++ post)` already matches
inside `x`, when its last character is not in `suffix`, and `post` is empty or
starts with a character that is not in the literal. -/
theorem dropLit_within (lit0 : Str) (last : Char) (x suffix post r : Str) (stop : Char)
    (hstop : stop ∉ lit0 ++ [last]) (hlast : last ∉ suffix)
    (hpost : post = [] ∨ ∃ q, post = stop :: q)
    (h : dropLit (lit0 ++ [last]) (x ++ (suffix ++ post)) = some r) :
    ∃ x1, x = (lit0 ++ [last]) ++ x1 := by
  have h1 := (dropLit_eq_some _ _ _ h).symm
  rcases List.append_eq_append_iff.mp h1 with ⟨a1, ha1, _⟩ | ⟨c1, hc1, hc2⟩
  · exact ⟨a1, ha1⟩
  · -- the literal is `x ++ c1`, and `c1` is a prefix of `suffix ++ post`
    by_cases hc1nil : c1 = []
    · subst hc1nil
      exact ⟨[], by simpa using hc1.symm⟩
    · exfalso
      have hlastc : c1.getLast? = some last := by
        have := congrArg List.getLast? hc1
        rw [List.getLast?_concat, List.getLast?_append_of_ne_nil _ hc1nil] at this
        exact this.symm
      have hlast_mem : last ∈ c1 := List.mem_of_getLast?_eq_some hlastc
      rcases List.append_eq_append_iff.mp hc2 with ⟨a2, ha2, ha3⟩ | ⟨c2, hc3, _⟩
      · -- `c1 = suffix ++ a2`
        cases a2 with
        | nil =>
          rw [List.append_nil] at ha2
          exact hlast (ha2 ▸ hlast_mem)
        | cons b a2 =>
          rcases hpost with hp | ⟨q, hp⟩
          · rw [hp] at ha3; cases ha3
          · rw [hp] at ha3
            simp only [List.cons_append, List.cons.injEq] at ha3
            apply hstop
            rw [hc1, ha2, ha3.1]
            simp
      · -- `suffix = c1 ++ c2`
        apply hlast
        rw [hc3]
        exact List.mem_append_left _ hlast_mem


theorem isSome_false {α : Type} (o : Option α) (h : o.isSome = false) : o = none := by
  cases o with
  | none => rfl
  | some a => cases h

theorem captureBeforeGit_post (post : Str) (hpost : post = [] ∨ ∃ q, post = '\n' :: q) :
    captureBeforeGit post = none := by
  rcases hpost with rfl | ⟨q, rfl⟩
  · rfl
  · simp [captureBeforeGit, dropLit]

theorem captureBeforeGit_suffix (post : Str) (hpost : post = [] ∨ ∃ q, post = '\n' :: q) :
    captureBeforeGit ('.' :: 'g' :: 'i' :: 't' :: post) = some [] := by
  have h0 := captureBeforeGit_post post hpost
  simp [captureBeforeGit, dropLit, h0]

theorem captureBeforeGit_path (p post : Str) (hp : '\n' ∉ p)
    (hpost : post = [] ∨ ∃ q, post = '\n' :: q) :
    captureBeforeGit (p ++ '.' :: 'g' :: 'i' :: 't' :: post) = some p := by
  induction p with
  | nil => exact captureBeforeGit_suffix post hpost
  | cons c p ih =>
    simp only [List.mem_cons, not_or] at hp
    have hc : c ≠ '\n' := fun e => hp.1 e.symm
    simp [captureBeforeGit, hc, ih hp.2]

theorem urlMatchAt_post (post : Str) (hpost : post = [] ∨ ∃ q, post = '\n' :: q) :
    urlMatchAt post = none := by
  rcases hpost with rfl | ⟨q, rfl⟩
  · rfl
  · simp [urlMatchAt, urlAltAt, dropLit]

theorem urlMatchAt_suffix (post : Str) (hpost : post = [] ∨ ∃ q, post = '\n' :: q) :
    urlMatchAt ('.' :: 'g' :: 'i' :: 't' :: post) = none := by
  have h0 := urlMatchAt_post post hpost
  rcases hpost with rfl | ⟨q, rfl⟩
  · rfl
  · simp [urlMatchAt, urlAltAt, dropLit, h0]

theorem urlAltAt_path (p post : Str) (hpost : post = [] ∨ ∃ q, post = '\n' :: q)
    (h1 : dropLit "https://github.com/".toList p = none)
    (h2 : dropLit "git@github.com:".toList p = none) :
    urlAltAt (p ++ '.' :: 'g' :: 'i' :: 't' :: post) = none := by
  have e1 : dropLit "https://github.com/".toList (p ++ '.' :: 'g' :: 'i' :: 't' :: post) = none := by
    cases h : dropLit "https://github.com/".toList (p ++ '.' :: 'g' :: 'i' :: 't' :: post) with
    | none => rfl
    | some r =>
      exfalso
      obtain ⟨x1, hx1⟩ := dropLit_within "https://github.com".toList '/' p ".git".toList post r '\n'
        (by decide) (by decide) hpost h
      rw [hx1] at h1
      have := dropLit_append ("https://github.com".toList ++ ['/']) x1
      exact absurd (h1 ▸ this) (by simp)
  have e2 : dropLit "git@github.com:".toList (p ++ '.' :: 'g' :: 'i' :: 't' :: post) = none := by
    cases h : dropLit "git@github.com:".toList (p ++ '.' :: 'g' :: 'i' :: 't' :: post) with
    | none => rfl
    | some r =>
      exfalso
      obtain ⟨x1, hx1⟩ := dropLit_within "git@github.com".toList ':' p ".git".toList post r '\n'
        (by decide) (by decide) hpost h
      rw [hx1] at h2
      have := dropLit_append ("git@github.com".toList ++ [':']) x1
      exact absurd (h2 ▸ this) (by simp)
  unfold urlAltAt
  rw [e1, e2]
  rfl

theorem urlMatchAt_path (p post : Str) (hpost : post = [] ∨ ∃ q, post = '\n' :: q)
    (h1 : containsLit "https://github.com/".toList p = false)
    (h2 : containsLit "git@github.com:".toList p = false) :
    urlMatchAt (p ++ '.' :: 'g' :: 'i' :: 't' :: post) = none := by
  induction p with
  | nil => exact urlMatchAt_suffix post hpost
  | cons c p ih =>
    simp only [containsLit, Bool.or_eq_false_iff] at h1 h2
    have ha := urlAltAt_path (c :: p) post hpost (isSome_false _ h1.1) (isSome_false _ h2.1)
    have hm := ih h1.2 h2.2
    simp only [List.cons_append] at ha ⊢
    simp [urlMatchAt, hm, ha]


theorem urlMatchAt_ssh (p post : Str) (hp : '\n' ∉ p)
    (hpost : post = [] ∨ ∃ q, post = '\n' :: q)
    (h1 : containsLit "https://github.com/".toList p = false)
    (h2 : containsLit "git@github.com:".toList p = false) :
    urlMatchAt ("git@github.com:".toList ++ (p ++ '.' :: 'g' :: 'i' :: 't' :: post)) = some p := by
  have hm := urlMatchAt_path p post hpost h1 h2
  have hc := captureBeforeGit_path p post hp hpost
  show urlMatchAt ('g' :: 'i' :: 't' :: '@' :: 'g' :: 'i' :: 't' :: 'h' :: 'u' :: 'b' :: '.' ::
    'c' :: 'o' :: 'm' :: ':' :: (p ++ '.' :: 'g' :: 'i' :: 't' :: post)) = some p
  simp [urlMatchAt, urlAltAt, dropLit, hm, hc]

theorem urlMatchAt_https (p post : Str) (hp : '\n' ∉ p)
    (hpost : post = [] ∨ ∃ q, post = '\n' :: q)
    (h1 : containsLit "https://github.com/".toList p = false)
    (h2 : containsLit "git@github.com:".toList p = false) :
    urlMatchAt ("https://github.com/".toList ++ (p ++ '.' :: 'g' :: 'i' :: 't' :: post)) = some p := by
  have hm := urlMatchAt_path p post hpost h1 h2
  have hc := captureBeforeGit_path p post hp hpost
  show urlMatchAt ('h' :: 't' :: 't' :: 'p' :: 's' :: ':' :: '/' :: '/' :: 'g' :: 'i' :: 't' ::
    'h' :: 'u' :: 'b' :: '.' :: 'c' :: 'o' :: 'm' :: '/' :: (p ++ '.' :: 'g' :: 'i' :: 't' :: post)) = some p
  simp [urlMatchAt, urlAltAt, dropLit, hm, hc]

theorem urlMatchAt_after (pre rest g : Str) (hpre : '\n' ∉ pre) (h : urlMatchAt rest = some g) :
    urlMatchAt (pre ++ rest) = some g := by
  induction pre with
  | nil => exact h
  | cons c pre ih =>
    simp only [List.mem_cons, not_or] at hpre
    have hc : c ≠ '\n' := fun e => hpre.1 e.symm
    simp [urlMatchAt, hc, ih hpre.2]

theorem findUrl_of_urlMatchAt (s g : Str) (h : urlMatchAt s = some g) : findUrl s = some g := by
  cases s with
  | nil => exact h
  | cons c cs => simp [findUrl, h]

/-! ## Invariants of the parser loop -/

theorem processLines_tagList (lines : List Str) (st st1 : ParseState)
    (h : processLines st lines = .ok st1) :
    st1.tagList = st.tagList ++ lines.filterMap capturedTag := by
  induction lines generalizing st with
  | nil =>
    simp only [processLines] at h
    cases h
    simp
  | cons line rest ih =>
    simp only [processLines] at h
    split at h
    · cases h
    · rename_i st2 hline
      rw [ih st2 h, (processLine_ok_inv _ _ _ hline).2.2.1]
      cases hcap : capturedTag line <;> simp [List.filterMap_cons, hcap]

theorem getContent_ok_inv (logCommand : Str) (tags : List Str) (logData : LogData)
    (h : getContent logCommand = .ok (tags, logData)) :
    ∃ st, processLines initState (splitLines logCommand) = .ok st ∧
      st.tagList = tags ∧ st.logData = logData := by
  unfold getContent at h
  split at h
  · cases h
  · rename_i st hst
    cases h
    exact ⟨st, hst, rfl, rfl⟩

theorem processLine_shapesOk (st st1 : ParseState) (line : Str) (hinv : shapesOk st)
    (h : processLine st line = .ok st1) : shapesOk st1 := by
  obtain ⟨hcur, htags, hdata⟩ := hinv
  obtain ⟨hguard, hc, ht, hd⟩ := processLine_ok_inv _ _ _ h
  have hcur1 : matchesTagName st1.currentTag = true := by
    rw [hc]
    cases hcap : capturedTag line with
    | some t => exact capturedTag_matches _ _ hcap
    | none =>
      rcases hcur with hcur | hcur
      · exact absurd hcur (hguard hcap)
      · exact hcur
  refine ⟨Or.inr hcur1, ?_, ?_⟩
  · intro t hmem
    rw [ht] at hmem
    rcases List.mem_append.mp hmem with hmem | hmem
    · exact htags t hmem
    · cases hcap : capturedTag line with
      | none => simp [hcap] at hmem
      | some t1 =>
        simp [hcap] at hmem
        rw [hmem]
        exact capturedTag_matches _ _ hcap
  · rcases hd with ⟨_, hd⟩ | ⟨pr, field0, field3, hpr, happ⟩
    · rw [hd]; exact hdata
    · obtain ⟨m1, hm1, hmem1⟩ := appendLog_ok st.logData st1.currentTag
        ⟨TrimSpace field3, TrimSpace field0, pr⟩
      rw [hm1] at happ
      cases happ
      intro k tag hmem
      rcases hmem1 k tag hmem with hold | ⟨hk, hlogs⟩
      · exact hdata k tag hold
      · refine ⟨hk ▸ hcur1, ?_⟩
        intro e he
        rcases hlogs e he with he | ⟨t0, ht0, he⟩
        · rw [he]; exact capturedPr_matches _ _ hpr
        · exact (hdata _ t0 ht0).2 e he

theorem processLines_shapesOk (lines : List Str) (st st1 : ParseState) (hinv : shapesOk st)
    (h : processLines st lines = .ok st1) : shapesOk st1 := by
  induction lines generalizing st with
  | nil =>
    simp only [processLines] at h
    cases h
    exact hinv
  | cons line rest ih =>
    simp only [processLines] at h
    split at h
    · cases h
    · rename_i st2 hline
      exact ih st2 (processLine_shapesOk _ _ _ hinv hline) h

theorem wellFormedLine_shape (line : Str) (h : wellFormedLine line) :
    ∃ f0 f1 f2 f3 rest, splitStar 6 line = f0 :: f1 :: f2 :: f3 :: rest := by
  unfold wellFormedLine at h
  match hs : splitStar 6 line with
  | [] => rw [hs] at h; simp at h
  | [_] => rw [hs] at h; simp at h
  | [_, _] => rw [hs] at h; simp at h
  | [_, _, _] => rw [hs] at h; simp at h
  | f0 :: f1 :: f2 :: f3 :: rest => exact ⟨f0, f1, f2, f3, rest, rfl⟩

/-- On a well-formed line the iteration is decided by the two captures alone. -/
theorem processLine_wellFormed (st : ParseState) (line : Str) (hw : wellFormedLine line) :
    ∃ field0 field3,
      processLine st line =
        if capturedTag line = none ∧ st.currentTag = [] then
          .error (.fatal "Commit not after a tag")
        else
          match capturedPr line with
          | none => .ok (trackTag st (capturedTag line))
          | some pr =>
            match appendLog (trackTag st (capturedTag line)).logData
                (trackTag st (capturedTag line)).currentTag
                ⟨TrimSpace field3, TrimSpace field0, TrimSpace pr⟩ with
            | .error e => .error e
            | .ok logData =>
              .ok ⟨(trackTag st (capturedTag line)).currentTag,
                (trackTag st (capturedTag line)).tagList, logData⟩ := by
  obtain ⟨f0, f1, f2, f3, rest, hs⟩ := wellFormedLine_shape line hw
  refine ⟨f0, f3, ?_⟩
  simp only [processLine, capturedTag, capturedPr, hs, List.getElem?_cons_zero,
    List.getElem?_cons_succ, Option.some_bind]
  split
  · rfl
  · cases findPr f1 <;> rfl

theorem processLine_progress (st : ParseState) (line : Str) (hw : wellFormedLine line)
    (h : isTagLine line = true ∨ st.currentTag ≠ []) :
    ∃ st1, processLine st line = .ok st1 ∧ st1.currentTag ≠ [] := by
  obtain ⟨field0, field3, heq⟩ := processLine_wellFormed st line hw
  have hguard : ¬ (capturedTag line = none ∧ st.currentTag = []) := by
    rintro ⟨h1, h2⟩
    rcases h with h | h
    · simp [isTagLine, h1] at h
    · exact h h2
  rw [if_neg hguard] at heq
  have hok : ∃ st1, processLine st line = .ok st1 := by
    cases hpr : capturedPr line with
    | none => rw [hpr] at heq; exact ⟨_, heq⟩
    | some pr =>
      rw [hpr] at heq
      obtain ⟨m1, hm1, _⟩ := appendLog_ok (trackTag st (capturedTag line)).logData
        (trackTag st (capturedTag line)).currentTag
        ⟨TrimSpace field3, TrimSpace field0, TrimSpace pr⟩
      simp only [hm1] at heq
      exact ⟨_, heq⟩
  obtain ⟨st1, hst1⟩ := hok
  refine ⟨st1, hst1, ?_⟩
  obtain ⟨hg, hc, _, _⟩ := processLine_ok_inv _ _ _ hst1
  rw [hc]
  cases hcap : capturedTag line with
  | none => exact hg hcap
  | some t => exact ne_nil_of_matchesTagName t (capturedTag_matches _ _ hcap)

theorem processLines_progress (lines : List Str) (st : ParseState)
    (hw : ∀ line ∈ lines, wellFormedLine line) (h : st.currentTag ≠ []) :
    ∃ st1, processLines st lines = .ok st1 := by
  induction lines generalizing st with
  | nil => exact ⟨st, rfl⟩
  | cons line rest ih =>
    obtain ⟨st2, h2, hc2⟩ := processLine_progress st line
      (hw line (List.mem_cons_self _ _)) (Or.inr h)
    obtain ⟨st1, h1⟩ := ih st2 (fun l hl => hw l (List.mem_cons_of_mem _ hl)) hc2
    exact ⟨st1, by simp only [processLines, h2, h1]⟩

/-! ## The renderer -/

theorem compareText_eq (baseUrl firstCommit current : Str) (rest : List Str) :
    compareText baseUrl firstCommit current rest =
      comparisonLink baseUrl firstCommit (current :: rest) 0 ++ "\n\n".toList := by
  cases rest <;> simp [compareText, comparisonLink]

theorem comparisonLink_succ (baseUrl firstCommit current : Str) (rest : List Str) (i : Nat) :
    comparisonLink baseUrl firstCommit (current :: rest) (i + 1) =
      comparisonLink baseUrl firstCommit rest i := by
  simp [comparisonLink]

/-- With a record for every tag, the loop writes one section per position of
the tag sequence. -/
theorem generateLoop_sections (baseUrl firstCommit : Str) (logData : LogData)
    (tags : List Str) (fh : Str) (h : ∀ t ∈ tags, mapGet logData t ≠ none) :
    ∃ secs : List Str,
      generateLoop baseUrl firstCommit logData tags fh = (fh ++ secs.flatten, none) ∧
      secs.length = tags.length ∧
      ∀ i t, tags[i]? = some t →
        ∃ tagContent, mapGet logData t = some tagContent ∧
          secs[i]? = some (headingText baseUrl t tagContent ++
            (comparisonLink baseUrl firstCommit tags i ++ "\n\n".toList) ++
            bulletsText baseUrl tagContent.Logs ++ "\n\n".toList) := by
  induction tags generalizing fh with
  | nil => exact ⟨[], by simp [generateLoop], rfl, by simp⟩
  | cons current rest ih =>
    cases hget : mapGet logData current with
    | none => exact absurd hget (h current (List.mem_cons_self _ _))
    | some tagContent =>
      obtain ⟨secs, hrun, hlen, hsec⟩ :=
        ih (fh ++ sectionText baseUrl firstCommit current rest tagContent)
          (fun t ht => h t (List.mem_cons_of_mem _ ht))
      refine ⟨sectionText baseUrl firstCommit current rest tagContent :: secs, ?_, ?_, ?_⟩
      · simp only [generateLoop, hget, hrun, List.flatten_cons, List.append_assoc]
      · simp [hlen]
      · intro i t hi
        cases i with
        | zero =>
          simp only [List.getElem?_cons_zero, Option.some.injEq] at hi
          subst hi
          refine ⟨tagContent, hget, ?_⟩
          simp only [List.getElem?_cons_zero, sectionText, compareText_eq]
        | succ i =>
          simp only [List.getElem?_cons_succ] at hi
          obtain ⟨tc, htc, hs⟩ := hsec i t hi
          exact ⟨tc, htc, by simp only [List.getElem?_cons_succ, comparisonLink_succ, hs]⟩

/-! ## Records, entries and field counts -/

/-- The record that appending `e` leaves under the key `k`. -/
theorem appendLog_get (m : LogData) (k : Str) (e : LogLine) :
    ∃ m1, appendLog m k e = .ok m1 ∧
      mapGet m1 k = some (match mapGet m k with
        | none => ⟨e.Date, [e], []⟩
        | some tag => ⟨tag.Date, tag.Logs ++ [e], tag.Value⟩) ∧
      ∀ t, t ≠ k → mapGet m1 t = mapGet m t := by
  unfold appendLog
  cases hg : mapGet m k with
  | none =>
    simp only [mapGet_mapSet_self]
    refine ⟨_, rfl, ?_, ?_⟩
    · simp [mapGet_mapSet_self]
    · intro t ht
      rw [mapGet_mapSet_ne _ _ _ _ (Ne.symm ht), mapGet_mapSet_ne _ _ _ _ (Ne.symm ht)]
  | some tag =>
    simp only [hg]
    refine ⟨_, rfl, ?_, ?_⟩
    · simp [mapGet_mapSet_self]
    · intro t ht
      rw [mapGet_mapSet_ne _ _ _ _ (Ne.symm ht)]

/-- An iteration that stores an entry stores the entry of its line under the
new current tag. -/
theorem processLine_ok_entry (st st1 : ParseState) (line pr : Str)
    (h : processLine st line = .ok st1) (hpr : capturedPr line = some pr) :
    appendLog st.logData st1.currentTag (entryOf line pr) = .ok st1.logData := by
  obtain ⟨_, hc, _, _⟩ := processLine_ok_inv _ _ _ h
  unfold processLine at h
  simp only at h
  split at h
  · cases h
  · rename_i field2 h2
    have hct : capturedTag line = findTag field2 := by simp [capturedTag, h2]
    split at h
    · cases h
    · rw [← hct, trackTag_captured] at h
      split at h
      · cases h
      · rename_i field1 h1
        have hcp : capturedPr line = findPr field1 := by simp [capturedPr, h1]
        rw [← hcp, hpr] at h
        simp only at h
        split at h
        · rename_i field0 field3 h0 h3
          split at h
          · cases h
          · rename_i logData happ
            cases h
            rw [TrimSpace_of_matchesPrNumber pr (capturedPr_matches _ _ hpr)] at happ
            have e0 : (splitStar 6 line).getD 0 [] = field0 := by
              simp [List.getD_eq_getElem?_getD, h0]
            have e3 : (splitStar 6 line).getD 3 [] = field3 := by
              simp [List.getD_eq_getElem?_getD, h3]
            simp only [entryOf, e0, e3]
            cases hcap : capturedTag line <;> simpa [hcap] using happ
        · cases h

theorem logsOf_appendLog (m m1 : LogData) (k : Str) (e : LogLine)
    (h : appendLog m k e = .ok m1) (t : Str) :
    logsOf m1 t = logsOf m t ++ (if k = t then [e] else []) := by
  obtain ⟨m2, h2, hk, hne⟩ := appendLog_get m k e
  rw [h2] at h
  cases h
  by_cases hkt : k = t
  · subst hkt
    simp only [logsOf, hk, if_true]
    cases mapGet m k <;> simp
  · simp only [logsOf, hne t (Ne.symm hkt), if_neg hkt, List.append_nil]

/-- The entries under every tag name grow by exactly the entries the
remaining lines attribute to it. -/
theorem processLines_logs (lines : List Str) (st st1 : ParseState)
    (h : processLines st lines = .ok st1) (t : Str) :
    logsOf st1.logData t = logsOf st.logData t ++ entriesOf t st.currentTag lines := by
  induction lines generalizing st with
  | nil =>
    simp only [processLines] at h
    cases h
    simp [entriesOf]
  | cons line rest ih =>
    simp only [processLines] at h
    split at h
    · cases h
    · rename_i st2 hline
      obtain ⟨_, hc, _, hd⟩ := processLine_ok_inv _ _ _ hline
      rw [ih st2 h, entriesOf, ← hc]
      cases hpr : capturedPr line with
      | none =>
        rcases hd with ⟨_, hd⟩ | ⟨pr, _, _, hpr2, _⟩
        · simp [hd]
        · rw [hpr] at hpr2; cases hpr2
      | some pr =>
        have := logsOf_appendLog _ _ _ _ (processLine_ok_entry _ _ _ _ hline hpr) t
        rw [this]
        simp only [List.append_assoc]

theorem mapSet_mapSet (m : LogData) (k : Str) (v v1 : Tag) :
    mapSet (mapSet m k v) k v1 = mapSet m k v1 := by
  induction m with
  | nil => simp [mapSet]
  | cons kv m ih =>
    obtain ⟨k1, v0⟩ := kv
    by_cases hk : k1 = k
    · simp [mapSet, hk]
    · simp [mapSet, hk, ih]

theorem mapSet_keys (m : LogData) (k : Str) (v : Tag) :
    (mapSet m k v).map Prod.fst =
      if k ∈ m.map Prod.fst then m.map Prod.fst else m.map Prod.fst ++ [k] := by
  induction m with
  | nil => simp [mapSet]
  | cons kv m ih =>
    obtain ⟨k1, v0⟩ := kv
    by_cases hk : k1 = k
    · subst hk
      simp only [mapSet, if_true, List.map_cons, List.mem_cons, true_or]
    · have hk2 : ¬ k = k1 := fun e => hk e.symm
      simp only [mapSet, if_neg hk, List.map_cons, ih, List.mem_cons, hk2, false_or]
      split <;> simp

theorem mapSet_keys_nodup (m : LogData) (k : Str) (v : Tag)
    (h : (m.map Prod.fst).Nodup) : ((mapSet m k v).map Prod.fst).Nodup := by
  rw [mapSet_keys]
  split
  · exact h
  · rename_i hk
    rw [List.nodup_append]
    refine ⟨h, List.nodup_singleton k, ?_⟩
    intro a ha hb
    simp only [List.mem_singleton] at hb
    exact hk (hb ▸ ha)

theorem mapGet_of_mem (m : LogData) (k : Str) (tag : Tag) (hn : (m.map Prod.fst).Nodup)
    (h : (k, tag) ∈ m) : mapGet m k = some tag := by
  induction m with
  | nil => simp at h
  | cons kv m ih =>
    obtain ⟨k1, v1⟩ := kv
    simp only [List.map_cons, List.nodup_cons] at hn
    rcases List.mem_cons.mp h with h | h
    · cases h
      simp [mapGet]
    · have hne : k1 ≠ k := by
        intro e
        apply hn.1
        rw [e]
        exact List.mem_map.mpr ⟨(k, tag), h, rfl⟩
      simp only [mapGet, if_neg hne]
      exact ih hn.2 h

/-- Appending a log line: the new map is the old one with the record of `k`
replaced (or added); keys stay distinct. -/
theorem appendLog_mem (m : LogData) (k : Str) (e : LogLine) :
    ∃ m1, appendLog m k e = .ok m1 ∧
      (∀ kv ∈ m1, kv ∈ m ∨
        kv = (k, match mapGet m k with
          | none => ⟨e.Date, [e], []⟩
          | some tag => ⟨tag.Date, tag.Logs ++ [e], tag.Value⟩)) ∧
      ((m.map Prod.fst).Nodup → (m1.map Prod.fst).Nodup) := by
  unfold appendLog
  cases hg : mapGet m k with
  | none =>
    simp only [mapGet_mapSet_self, mapSet_mapSet, List.nil_append]
    refine ⟨_, rfl, ?_, mapSet_keys_nodup _ _ _⟩
    intro kv hkv
    rcases mem_mapSet _ _ _ _ hkv with h | h
    · exact Or.inr h
    · exact Or.inl h
  | some tag =>
    simp only [hg]
    refine ⟨_, rfl, ?_, mapSet_keys_nodup _ _ _⟩
    intro kv hkv
    rcases mem_mapSet _ _ _ _ hkv with h | h
    · exact Or.inr h
    · exact Or.inl h

theorem processLine_recordsOk (st st1 : ParseState) (line : Str) (hinv : recordsOk st)
    (h : processLine st line = .ok st1) : recordsOk st1 := by
  obtain ⟨hnodup, hcur, hrec⟩ := hinv
  obtain ⟨hguard, hc, ht, hd⟩ := processLine_ok_inv _ _ _ h
  have hsub : ∀ t, t ∈ st.tagList → t ∈ st1.tagList := by
    intro t hmem
    rw [ht]
    exact List.mem_append_left _ hmem
  have hcur1 : st1.currentTag ∈ st1.tagList := by
    rw [hc, ht]
    cases hcap : capturedTag line with
    | some t => simp
    | none =>
      rcases hcur with hcur | hcur
      · exact absurd hcur (hguard hcap)
      · simpa using hcur
  rcases hd with ⟨_, hd⟩ | ⟨pr, field0, field3, hpr, happ⟩
  · refine ⟨hd ▸ hnodup, Or.inr hcur1, ?_⟩
    intro k tag hmem
    rw [hd] at hmem
    exact ⟨hsub k (hrec k tag hmem).1, (hrec k tag hmem).2⟩
  · obtain ⟨m1, hm1, hmem1, hn1⟩ := appendLog_mem st.logData st1.currentTag
      ⟨TrimSpace field3, TrimSpace field0, pr⟩
    rw [hm1] at happ
    cases happ
    refine ⟨hn1 hnodup, Or.inr hcur1, ?_⟩
    intro k tag hmem
    rcases hmem1 _ hmem with hold | hnew
    · exact ⟨hsub k (hrec k tag hold).1, (hrec k tag hold).2⟩
    · cases hget : mapGet st.logData st1.currentTag with
      | none =>
        rw [hget] at hnew
        cases hnew
        exact ⟨hcur1, _, _, rfl, rfl⟩
      | some tag0 =>
        rw [hget] at hnew
        cases hnew
        obtain ⟨e, rest, hlogs, hdate⟩ := (hrec _ tag0 (mem_of_mapGet _ _ _ hget)).2
        exact ⟨hcur1, e, rest ++ [⟨TrimSpace field3, TrimSpace field0, pr⟩], by simp [hlogs], hdate⟩

theorem processLines_recordsOk (lines : List Str) (st st1 : ParseState) (hinv : recordsOk st)
    (h : processLines st lines = .ok st1) : recordsOk st1 := by
  induction lines generalizing st with
  | nil =>
    simp only [processLines] at h
    cases h
    exact hinv
  | cons line rest ih =>
    simp only [processLines] at h
    split at h
    · cases h
    · rename_i st2 hline
      exact ih st2 (processLine_recordsOk _ _ _ hinv hline) h

theorem recordsOk_initState : recordsOk initState :=
  ⟨by simp [initState], Or.inl rfl, by simp [initState]⟩

theorem splitStarAux_length (k : Nat) (s : Str) :
    (splitStarAux k s).length = min k (s.count '*') + 1 := by
  induction s generalizing k with
  | nil => cases k <;> simp [splitStarAux]
  | cons c cs ih =>
    cases k with
    | zero => simp [splitStarAux]
    | succ k =>
      by_cases hc : c = '*'
      · subst hc
        simp only [splitStarAux, if_true, List.length_cons, ih, List.count_cons_self]
        omega
      · have hc2 : ¬ ((c == '*') = true) := by simpa using hc
        have hlen := ih (k + 1)
        simp only [splitStarAux, if_neg hc, List.count_cons, hc2, if_false, Nat.add_zero]
        cases hs : splitStarAux (k + 1) cs with
        | nil => rw [hs] at hlen; simp at hlen
        | cons l ls =>
          rw [hs] at hlen
          simpa using hlen

theorem wellFormedLine_of_stars (line : Str) (h : 3 ≤ line.count '*') : wellFormedLine line := by
  unfold wellFormedLine
  simp only [splitStar, splitStarAux_length]
  omega

/-- On a well-formed line the iteration returns, unless the line has no tag
and no tag was met before. -/
theorem processLine_wellFormed_cases (st : ParseState) (line : Str) (hw : wellFormedLine line) :
    (processLine st line = .error (.fatal "Commit not after a tag") ∧
        capturedTag line = none ∧ st.currentTag = []) ∨
      ∃ st1, processLine st line = .ok st1 := by
  by_cases hguard : capturedTag line = none ∧ st.currentTag = []
  · left
    obtain ⟨field0, field3, heq⟩ := processLine_wellFormed st line hw
    rw [if_pos hguard] at heq
    exact ⟨heq, hguard⟩
  · right
    have : isTagLine line = true ∨ st.currentTag ≠ [] := by
      by_cases hc : st.currentTag = []
      · left
        cases hcap : capturedTag line with
        | none => exact absurd ⟨hcap, hc⟩ hguard
        | some t => simp [isTagLine, hcap]
      · exact Or.inr hc
    obtain ⟨st1, h1, _⟩ := processLine_progress st line hw this
    exact ⟨st1, h1⟩

theorem processLines_wellFormed_cases (lines : List Str) (st : ParseState)
    (hw : ∀ line ∈ lines, wellFormedLine line) :
    processLines st lines = .error (.fatal "Commit not after a tag") ∨
      ∃ st1, processLines st lines = .ok st1 := by
  induction lines generalizing st with
  | nil => exact Or.inr ⟨st, rfl⟩
  | cons line rest ih =>
    rcases processLine_wellFormed_cases st line (hw line (List.mem_cons_self _ _)) with
      ⟨h, _, _⟩ | ⟨st2, h⟩
    · left
      simp only [processLines, h]
    · rcases ih st2 (fun l hl => hw l (List.mem_cons_of_mem _ hl)) with h2 | ⟨st1, h2⟩
      · left
        simp only [processLines, h, h2]
      · right
        exact ⟨st1, by simp only [processLines, h, h2]⟩

theorem appendLog_ne_error (m : LogData) (k : Str) (e : LogLine) (err : Failure) :
    appendLog m k e ≠ .error err := by
  intro he
  obtain ⟨m1, hm1, _⟩ := appendLog_ok m k e
  rw [hm1] at he
  cases he

/-- The fatal error of an iteration only comes from the guard: no tag on the
line and no current tag. -/
theorem processLine_fatal_inv (st : ParseState) (line : Str) (msg : String)
    (h : processLine st line = .error (.fatal msg)) :
    capturedTag line = none ∧ st.currentTag = [] := by
  unfold processLine at h
  simp only at h
  split at h
  · cases h
  · rename_i field2 h2
    have hct : capturedTag line = findTag field2 := by simp [capturedTag, h2]
    split at h
    · rename_i hguard
      rw [hct]
      exact hguard
    · split at h
      · cases h
      · split at h
        · cases h
        · split at h
          · split at h
            · rename_i heq
              exact absurd heq (appendLog_ne_error _ _ _ _)
            · cases h
          · cases h

/-! ## The rendered text -/

theorem bulletsText_eq (baseUrl : Str) (logs : List LogLine) :
    bulletsText baseUrl logs = (logs.map (specBullet baseUrl)).flatten := by
  induction logs with
  | nil => rfl
  | cons e rest ih =>
    simp only [bulletsText, ih, List.map_cons, List.flatten_cons, bulletText, specBullet,
      List.append_assoc]

theorem generateLoop_spec (baseUrl firstCommit : Str) (logData : LogData)
    (tags : List Str) (fh : Str) (h : ∀ t ∈ tags, mapGet logData t ≠ none) :
    generateLoop baseUrl firstCommit logData tags fh =
      (fh ++ ((List.range tags.length).map
        (specSection baseUrl firstCommit logData tags)).flatten, none) := by
  obtain ⟨secs, hrun, hlen, hsec⟩ := generateLoop_sections baseUrl firstCommit logData tags fh h
  have hsecs : secs = (List.range tags.length).map
      (specSection baseUrl firstCommit logData tags) := by
    apply List.ext_getElem?
    intro i
    by_cases hi : i < tags.length
    · have ht : tags[i]? = some tags[i] := List.getElem?_eq_getElem hi
      obtain ⟨tc, htc, hs⟩ := hsec i _ ht
      rw [hs, List.getElem?_map, List.getElem?_range hi]
      simp only [Option.map_some', specSection, ht, htc, headingText, specHeading,
        bulletsText_eq]
    · have h1 : secs.length ≤ i := by omega
      have h2 : ((List.range tags.length).map
          (specSection baseUrl firstCommit logData tags)).length ≤ i := by
        simp; omega
      rw [List.getElem?_eq_none h1, List.getElem?_eq_none h2]
  rw [hrun, hsecs]

theorem specSection_heading (baseUrl firstCommit : Str) (logData : LogData)
    (tags : List Str) (h : ∀ t ∈ tags, mapGet logData t ≠ none) (i : Nat)
    (hi : i < tags.length) :
    ∃ rest, specSection baseUrl firstCommit logData tags i = "## [".toList ++ rest := by
  have ht : tags[i]? = some tags[i] := List.getElem?_eq_getElem hi
  cases hget : mapGet logData tags[i] with
  | none => exact absurd hget (h _ (List.getElem_mem hi))
  | some tc =>
    simp only [specSection, ht, hget, specHeading, List.append_assoc]
    exact ⟨_, rfl⟩

theorem generateLoopVars_eq (baseUrl firstCommit : Str) (tags : List Str) (vars : RenderVars) :
    generateLoopVars baseUrl firstCommit tags vars =
      (⟨vars.tagList, vars.logData,
          (generateLoop baseUrl firstCommit vars.logData tags vars.fh).1⟩,
        (generateLoop baseUrl firstCommit vars.logData tags vars.fh).2) := by
  induction tags generalizing vars with
  | nil => rfl
  | cons current tags ih =>
    simp only [generateLoopVars, generateLoop]
    cases mapGet vars.logData current with
    | none => rfl
    | some tagContent => simp only [ih]

theorem generateVars_eq (vars : RenderVars) (revListCommand fetchUrlCommand : Str) :
    generateVars vars revListCommand fetchUrlCommand =
      (⟨vars.tagList, vars.logData,
          (generate vars.fh vars.tagList vars.logData revListCommand fetchUrlCommand).1⟩,
        (generate vars.fh vars.tagList vars.logData revListCommand fetchUrlCommand).2) := by
  simp only [generateVars, generate]
  cases getGithubRepositoryUrl fetchUrlCommand with
  | error e => rfl
  | ok baseUrl => simp only [generateLoopVars_eq]

theorem generateLoop_congr (baseUrl firstCommit : Str) (logData1 logData2 : LogData)
    (tags : List Str) (fh : Str) (h : ∀ t ∈ tags, mapGet logData1 t = mapGet logData2 t) :
    generateLoop baseUrl firstCommit logData1 tags fh =
      generateLoop baseUrl firstCommit logData2 tags fh := by
  induction tags generalizing fh with
  | nil => rfl
  | cons current tags ih =>
    simp only [generateLoop, h current (List.mem_cons_self _ _)]
    cases mapGet logData2 current with
    | none => rfl
    | some tagContent => exact ih _ (fun t ht => h t (List.mem_cons_of_mem _ ht))

/-! ## Occurrences of the header -/

theorem scanG_append (p : Bool) (a b : Str) :
    scanG p (a ++ b) = (scanG p a && scanG (endsG p a) b) := by
  induction a generalizing p with
  | nil => simp [scanG, endsG]
  | cons c cs ih => simp [scanG, endsG, ih, Bool.and_assoc]

theorem scanG_of_no_newline (p : Bool) (s : Str) (h : '\n' ∉ s) : scanG p s = true := by
  induction s generalizing p with
  | nil => rfl
  | cons c cs ih =>
    simp only [List.mem_cons, not_or] at h
    have hc : c ≠ '\n' := fun e => h.1 e.symm
    simp [scanG, hc, ih _ h.2]

/-- A piece without line break is passed over by the scan. -/
theorem scanG_piece (p : Bool) (v rest : Str) (h : '\n' ∉ v) :
    scanG p (v ++ rest) = scanG (endsG p v) rest := by
  rw [scanG_append, scanG_of_no_newline p v h, Bool.true_and]

theorem countLit_header_of_scanG (p : Bool) (s : Str) (h : scanG p s = true) :
    countLit "# Changelog\n\n".toList s = 0 := by
  induction s generalizing p with
  | nil => rfl
  | cons c cs ih =>
    have hcs : scanG (decide (c = 'g')) cs = true := by
      simp only [scanG, Bool.and_eq_true] at h
      exact h.2
    have hnone : dropLit "# Changelog\n\n".toList (c :: cs) = none := by
      cases hd : dropLit "# Changelog\n\n".toList (c :: cs) with
      | none => rfl
      | some r =>
        exfalso
        have e := dropLit_eq_some _ _ _ hd
        rw [e] at h
        revert h
        show scanG p ('#' :: ' ' :: 'C' :: 'h' :: 'a' :: 'n' :: 'g' :: 'e' :: 'l' :: 'o' ::
          'g' :: '\n' :: '\n' :: r) = true → False
        simp [scanG]
    simp only [countLit, hnone, Option.isSome_none, Bool.false_eq_true, if_false, Nat.zero_add]
    exact ih _ hcs

theorem countLit_header_once (body : Str) (h : scanG false body = true) :
    countLit "# Changelog\n\n".toList ("# Changelog\n\n".toList ++ body) = 1 := by
  have h0 := countLit_header_of_scanG false body h
  show countLit "# Changelog\n\n".toList ('#' :: ' ' :: 'C' :: 'h' :: 'a' :: 'n' :: 'g' :: 'e' ::
    'l' :: 'o' :: 'g' :: '\n' :: '\n' :: body) = 1
  have hd : dropLit "# Changelog\n\n".toList ('#' :: ' ' :: 'C' :: 'h' :: 'a' :: 'n' :: 'g' ::
      'e' :: 'l' :: 'o' :: 'g' :: '\n' :: '\n' :: body) = some body :=
    dropLit_append "# Changelog\n\n".toList body
  rw [countLit, hd]
  simp [countLit, dropLit]
  exact h0

theorem scanG_bullet (p : Bool) (baseUrl : Str) (e : LogLine) (rest : Str)
    (hb : '\n' ∉ baseUrl) (hm : '\n' ∉ e.Message) (hn : '\n' ∉ e.PrNumber) :
    scanG p (specBullet baseUrl e ++ rest) = scanG false rest := by
  simp [specBullet, scanG, scanG_piece, hb, hm, hn]

theorem scanG_bullets (baseUrl : Str) (logs : List LogLine) (rest : Str)
    (hb : '\n' ∉ baseUrl) (hl : ∀ e ∈ logs, '\n' ∉ e.Message ∧ '\n' ∉ e.PrNumber) :
    scanG false ((logs.map (specBullet baseUrl)).flatten ++ rest) = scanG false rest := by
  induction logs with
  | nil => rfl
  | cons e logs ih =>
    simp only [List.map_cons, List.flatten_cons, List.append_assoc]
    rw [scanG_bullet false baseUrl e _ hb (hl e (List.mem_cons_self _ _)).1
      (hl e (List.mem_cons_self _ _)).2]
    exact ih (fun x hx => hl x (List.mem_cons_of_mem _ hx))

theorem scanG_heading (p : Bool) (baseUrl tag date rest : Str)
    (hb : '\n' ∉ baseUrl) (ht : '\n' ∉ tag) (hd : '\n' ∉ date) :
    scanG p (specHeading baseUrl tag date ++ rest) = scanG false rest := by
  simp [specHeading, scanG, scanG_piece, hb, ht, hd]

theorem scanG_link (baseUrl other tag rest : Str)
    (hb : '\n' ∉ baseUrl) (ho : '\n' ∉ other) (ht : '\n' ∉ tag) :
    scanG false ("[Full Changelog](".toList ++ baseUrl ++ "/compare/".toList ++ other ++
      "...".toList ++ tag ++ ")".toList ++ "\n\n".toList ++ rest) = scanG false rest := by
  simp [scanG, scanG_piece, hb, ho, ht]

theorem scanG_specSection (baseUrl firstCommit : Str) (logData : LogData) (tags : List Str)
    (hb : '\n' ∉ baseUrl) (hf : '\n' ∉ firstCommit) (ht : ∀ t ∈ tags, '\n' ∉ t)
    (hr : ∀ t ∈ tags, ∀ record, mapGet logData t = some record →
      '\n' ∉ record.Date ∧ ∀ e ∈ record.Logs, '\n' ∉ e.Message ∧ '\n' ∉ e.PrNumber)
    (i : Nat) (rest : Str) :
    scanG false (specSection baseUrl firstCommit logData tags i ++ rest) = scanG false rest := by
  cases hi : tags[i]? with
  | none => simp only [specSection, hi, List.nil_append]
  | some tag =>
    have hmem : tag ∈ tags := List.getElem?_mem hi
    cases hget : mapGet logData tag with
    | none => simp only [specSection, hi, hget, List.nil_append]
    | some record =>
      obtain ⟨hd, hl⟩ := hr tag hmem record hget
      have hD : tags.getD i [] = tag := by simp [List.getD_eq_getElem?_getD, hi]
      have hlink : ∃ other, '\n' ∉ other ∧
          comparisonLink baseUrl firstCommit tags i =
            "[Full Changelog](".toList ++ baseUrl ++ "/compare/".toList ++ other ++
              "...".toList ++ tag ++ ")".toList := by
        cases h1 : tags[i + 1]? with
        | none => exact ⟨firstCommit, hf, by simp only [comparisonLink, h1, hD]⟩
        | some older =>
          exact ⟨older, ht older (List.getElem?_mem h1), by simp only [comparisonLink, h1, hD]⟩
      obtain ⟨other, ho, hlink⟩ := hlink
      simp only [specSection, hi, hget, hlink, List.append_assoc]
      rw [scanG_heading false baseUrl tag record.Date _ hb (ht tag hmem) hd]
      have := scanG_link baseUrl other tag
        ((record.Logs.map (specBullet baseUrl)).flatten ++ ("\n\n".toList ++ rest)) hb ho
        (ht tag hmem)
      simp only [List.append_assoc] at this
      rw [this, scanG_bullets baseUrl record.Logs _ hb hl]
      simp [scanG]

theorem scanG_sections (baseUrl firstCommit : Str) (logData : LogData) (tags : List Str)
    (hb : '\n' ∉ baseUrl) (hf : '\n' ∉ firstCommit) (ht : ∀ t ∈ tags, '\n' ∉ t)
    (hr : ∀ t ∈ tags, ∀ record, mapGet logData t = some record →
      '\n' ∉ record.Date ∧ ∀ e ∈ record.Logs, '\n' ∉ e.Message ∧ '\n' ∉ e.PrNumber)
    (positions : List Nat) :
    scanG false
      ((positions.map (specSection baseUrl firstCommit logData tags)).flatten) = true := by
  induction positions with
  | nil => rfl
  | cons i positions ih =>
    simp only [List.map_cons, List.flatten_cons]
    rw [scanG_specSection baseUrl firstCommit logData tags hb hf ht hr]
    exact ih

/-- Without line breaks in the rendered data, the header occurs once in the
text of the specification. -/
theorem specChangelog_header_once (baseUrl firstCommit : Str) (logData : LogData)
    (tags : List Str)
    (hb : '\n' ∉ baseUrl) (hf : '\n' ∉ firstCommit) (ht : ∀ t ∈ tags, '\n' ∉ t)
    (hr : ∀ t ∈ tags, ∀ record, mapGet logData t = some record →
      '\n' ∉ record.Date ∧ ∀ e ∈ record.Logs, '\n' ∉ e.Message ∧ '\n' ∉ e.PrNumber) :
    countLit "# Changelog\n\n".toList (specChangelog baseUrl firstCommit logData tags) = 1 := by
  unfold specChangelog
  exact countLit_header_once _ (scanG_sections baseUrl firstCommit logData tags hb hf ht hr _)

/-! ## Claims -/

/-- C1: a one-line raw log `body*subject*decoration*date` (no `*` and no line
break in the four fields) whose subject carries `Merge pull request #n` and whose
decoration carries `tag: v` parses to the tag sequence `[v]` and a mapping with
the single key `v`, dated by the trimmed date field, holding the single entry
with that date, the trimmed body as message and `n` as pull-request number. -/
theorem getContent_single_line (body subject decoration date n v : Str)
    (hbody : '*' ∉ body ∧ '\n' ∉ body) (hsubject : '*' ∉ subject ∧ '\n' ∉ subject)
    (hdecoration : '*' ∉ decoration ∧ '\n' ∉ decoration) (hdate : '*' ∉ date ∧ '\n' ∉ date)
    (hpr : findPr subject = some n) (htag : findTag decoration = some v) :
    getContent (body ++ '*' :: (subject ++ '*' :: (decoration ++ '*' :: date))) =
      .ok ([v], [(v, ⟨TrimSpace date, [⟨TrimSpace date, TrimSpace body, n⟩], []⟩)]) := by
  have hline : '\n' ∉ body ++ '*' :: (subject ++ '*' :: (decoration ++ '*' :: date)) := by
    simp [hbody.2, hsubject.2, hdecoration.2, hdate.2]
  have hv := TrimSpace_of_matchesTagName v (findTag_some _ _ htag)
  have hn := TrimSpace_of_matchesPrNumber n (findPr_some _ _ hpr)
  unfold getContent
  rw [splitLines_of_no_newline _ hline]
  simp only [processLines, processLine]
  rw [splitStar_four_fields _ _ _ _ hbody.1 hsubject.1 hdecoration.1 hdate.1]
  simp [htag, hpr, hv, hn, initState, mapGet, mapSet, trackTag, appendLog]

/-- C1 at the line of the specification: tag `v1.0` with the one entry
`2023-01-15`, `Fix bug`, `42`. -/
theorem getContent_single_line_witness :
    getContent "Fix bug*Merge pull request #42 from x*tag: v1.0*2023-01-15".toList =
      .ok (["v1.0".toList],
        [("v1.0".toList,
          ⟨"2023-01-15".toList, [⟨"2023-01-15".toList, "Fix bug".toList, "42".toList⟩], []⟩)]) :=
  getContent_single_line "Fix bug".toList "Merge pull request #42 from x".toList
    "tag: v1.0".toList "2023-01-15".toList "42".toList "v1.0".toList
    (by decide) (by decide) (by decide) (by decide) (by decide) (by decide)

/-- C2, the code at a raw log whose first merge commit is tagged `v2.0` without
being a pull-request merge: the parser returns the tag sequence `[v2.0, v1.0]`
and a mapping that has no record for `v2.0`. -/
theorem getContent_tag_without_record :
    getContent ("*Merge branch release* (tag: v2.0)*2023-02-01\n" ++
        "Fix bug*Merge pull request #42 from x* (tag: v1.0)*2023-01-15").toList =
      .ok (["v2.0".toList, "v1.0".toList],
        [("v1.0".toList,
          ⟨"2023-01-15".toList, [⟨"2023-01-15".toList, "Fix bug".toList, "42".toList⟩], []⟩)]) ∧
    mapGet
      [("v1.0".toList,
        ⟨"2023-01-15".toList, [⟨"2023-01-15".toList, "Fix bug".toList, "42".toList⟩], []⟩)]
      "v2.0".toList = none := by
  decide

/-- C3, the code at the same raw log: the parser accepts it, and rendering what
the parser returned stops at the first tag with a nil dereference, before
anything of a section is written. -/
theorem generate_tag_without_record :
    ∃ tagList logData,
      getContent ("*Merge branch release* (tag: v2.0)*2023-02-01\n" ++
        "Fix bug*Merge pull request #42 from x* (tag: v1.0)*2023-01-15").toList =
        .ok (tagList, logData) ∧
      generate "# Changelog\n\n".toList tagList logData "abc123\n".toList
        "  Fetch URL: git@github.com:org/repo.git\n".toList =
        ("# Changelog\n\n".toList, some .nilDereference) :=
  ⟨["v2.0".toList, "v1.0".toList],
    [("v1.0".toList,
      ⟨"2023-01-15".toList, [⟨"2023-01-15".toList, "Fix bug".toList, "42".toList⟩], []⟩)],
    by decide, by decide⟩

/-- C4, as stated, fails: two tag-decorated lines whose decorations `v1.0-rc2`
and `v1.0-rc1` both capture `v1.0` give a tag sequence with a duplicate. -/
theorem getContent_tagList_duplicate :
    ∃ tagList logData,
      getContent ("a*Merge pull request #2 from x* (tag: v1.0-rc2)*2023-01-16\n" ++
        "b*Merge pull request #1 from y* (tag: v1.0-rc1)*2023-01-15").toList =
        .ok (tagList, logData) ∧
      ¬ tagList.Nodup :=
  ⟨["v1.0".toList, "v1.0".toList],
    [("v1.0".toList,
      ⟨"2023-01-16".toList,
        [⟨"2023-01-16".toList, "a".toList, "2".toList⟩,
         ⟨"2023-01-15".toList, "b".toList, "1".toList⟩], []⟩)],
    by decide, by decide⟩

/-- C4, amended: the tag sequence of an accepted raw log is the sequence of the
names captured on its tag-decorated lines, one per such line, top to bottom; so
it has no duplicates whenever no name is captured on two lines. -/
theorem getContent_tagList (logCommand : Str) (tagList : List Str) (logData : LogData)
    (h : getContent logCommand = .ok (tagList, logData)) :
    tagList = capturedTags logCommand ∧
      ((capturedTags logCommand).Nodup → tagList.Nodup) := by
  obtain ⟨st, hst, htags, _⟩ := getContent_ok_inv _ _ _ h
  have := processLines_tagList _ _ _ hst
  simp only [initState, List.nil_append] at this
  have e : tagList = capturedTags logCommand := by rw [← htags, this]; rfl
  exact ⟨e, fun hn => e ▸ hn⟩

/-- C4, amended, at a raw log of two tagged pull-request merges. -/
theorem getContent_tagList_witness :
    getContent ("a*Merge pull request #2 from x* (tag: v2.0)*2023-02-01\n" ++
        "b*Merge pull request #1 from y* (tag: v1.0)*2023-01-15").toList =
        .ok (["v2.0".toList, "v1.0".toList],
          [("v2.0".toList,
            ⟨"2023-02-01".toList, [⟨"2023-02-01".toList, "a".toList, "2".toList⟩], []⟩),
           ("v1.0".toList,
            ⟨"2023-01-15".toList, [⟨"2023-01-15".toList, "b".toList, "1".toList⟩], []⟩)]) ∧
      (["v2.0".toList, "v1.0".toList] =
          capturedTags ("a*Merge pull request #2 from x* (tag: v2.0)*2023-02-01\n" ++
            "b*Merge pull request #1 from y* (tag: v1.0)*2023-01-15").toList ∧
        ((capturedTags ("a*Merge pull request #2 from x* (tag: v2.0)*2023-02-01\n" ++
            "b*Merge pull request #1 from y* (tag: v1.0)*2023-01-15").toList).Nodup →
          ["v2.0".toList, "v1.0".toList].Nodup)) :=
  ⟨by decide,
    getContent_tagList
      ("a*Merge pull request #2 from x* (tag: v2.0)*2023-02-01\n" ++
        "b*Merge pull request #1 from y* (tag: v1.0)*2023-01-15").toList
      ["v2.0".toList, "v1.0".toList]
      [("v2.0".toList,
        ⟨"2023-02-01".toList, [⟨"2023-02-01".toList, "a".toList, "2".toList⟩], []⟩),
       ("v1.0".toList,
        ⟨"2023-01-15".toList, [⟨"2023-01-15".toList, "b".toList, "1".toList⟩], []⟩)]
      (by decide)⟩

/-- C5: when the remote resolves to `baseUrl` and every tag of the sequence has
a record, `generate` writes one section per position of the sequence, in order,
and the section at position `i` is the heading of tag `i`, then the comparison
link `[Full Changelog](<base>/compare/<tag i+1>...<tag i>)` when there is a tag
`i + 1`, else `[Full Changelog](<base>/compare/<firstCommit>...<tag i>)`,
followed by a blank line, then the bullets and the separator. -/
theorem generate_sections (fh : Str) (tagList : List Str) (logData : LogData)
    (revListCommand fetchUrlCommand baseUrl : Str)
    (hurl : getGithubRepositoryUrl fetchUrlCommand = .ok baseUrl)
    (h : ∀ t ∈ tagList, mapGet logData t ≠ none) :
    ∃ secs : List Str,
      generate fh tagList logData revListCommand fetchUrlCommand =
        (fh ++ secs.flatten, none) ∧
      secs.length = tagList.length ∧
      ∀ i t, tagList[i]? = some t →
        ∃ tagContent, mapGet logData t = some tagContent ∧
          secs[i]? = some (headingText baseUrl t tagContent ++
            (comparisonLink baseUrl (getFirstCommit revListCommand) tagList i ++
              "\n\n".toList) ++
            bulletsText baseUrl tagContent.Logs ++ "\n\n".toList) := by
  obtain ⟨secs, hrun, hlen, hsec⟩ :=
    generateLoop_sections baseUrl (getFirstCommit revListCommand) logData tagList fh h
  refine ⟨secs, ?_, hlen, hsec⟩
  simp only [generate, hurl, hrun]

/-- C5 at the sequence `[v2.0, v1.0]` with first commit `abc123`: the section of
`v2.0` links `compare/v1.0...v2.0`, the section of `v1.0` links
`compare/abc123...v1.0`. -/
theorem generate_sections_witness :
    comparisonLink "https://github.com/org/repo".toList (getFirstCommit "abc123\n".toList)
        ["v2.0".toList, "v1.0".toList] 0 =
      "[Full Changelog](https://github.com/org/repo/compare/v1.0...v2.0)".toList ∧
    comparisonLink "https://github.com/org/repo".toList (getFirstCommit "abc123\n".toList)
        ["v2.0".toList, "v1.0".toList] 1 =
      "[Full Changelog](https://github.com/org/repo/compare/abc123...v1.0)".toList ∧
    ∃ secs : List Str,
      generate "# Changelog\n\n".toList ["v2.0".toList, "v1.0".toList]
          [("v2.0".toList, ⟨"2023-02-01".toList, [], []⟩),
            ("v1.0".toList, ⟨"2023-01-15".toList, [], []⟩)]
          "abc123\n".toList "  Fetch URL: git@github.com:org/repo.git\n".toList =
        ("# Changelog\n\n".toList ++ secs.flatten, none) ∧
      secs.length = ["v2.0".toList, "v1.0".toList].length ∧
      ∀ i t, ["v2.0".toList, "v1.0".toList][i]? = some t →
        ∃ tagContent,
          mapGet [("v2.0".toList, ⟨"2023-02-01".toList, [], []⟩),
            ("v1.0".toList, ⟨"2023-01-15".toList, [], []⟩)] t = some tagContent ∧
          secs[i]? = some (headingText "https://github.com/org/repo".toList t tagContent ++
            (comparisonLink "https://github.com/org/repo".toList
                (getFirstCommit "abc123\n".toList) ["v2.0".toList, "v1.0".toList] i ++
              "\n\n".toList) ++
            bulletsText "https://github.com/org/repo".toList tagContent.Logs ++
            "\n\n".toList) :=
  ⟨by decide, by decide,
    generate_sections "# Changelog\n\n".toList ["v2.0".toList, "v1.0".toList]
      [("v2.0".toList, ⟨"2023-02-01".toList, [], []⟩),
        ("v1.0".toList, ⟨"2023-01-15".toList, [], []⟩)]
      "abc123\n".toList "  Fetch URL: git@github.com:org/repo.git\n".toList
      "https://github.com/org/repo".toList (by decide) (by decide)⟩

/-- C6: in what the parser returns for an accepted raw log, every name of the
tag sequence and every key of the mapping has the shape `^v?[0-9.]+$`, and the
pull-request number of every stored entry has the shape `^[0-9]+$`. -/
theorem getContent_shapes (logCommand : Str) (tagList : List Str) (logData : LogData)
    (h : getContent logCommand = .ok (tagList, logData)) :
    (∀ t ∈ tagList, matchesTagName t = true) ∧
    (∀ k tag, (k, tag) ∈ logData →
      matchesTagName k = true ∧ ∀ e ∈ tag.Logs, matchesPrNumber e.PrNumber = true) := by
  obtain ⟨st, hst, htags, hdata⟩ := getContent_ok_inv _ _ _ h
  have hinit : shapesOk initState := ⟨Or.inl rfl, by simp [initState], by simp [initState]⟩
  have := processLines_shapesOk _ _ _ hinit hst
  subst htags hdata
  exact this.2

/-- C6 at a raw log of one tagged pull-request merge followed by an untagged
one. -/
theorem getContent_shapes_witness :
    getContent ("a*Merge pull request #12 from x* (tag: v1.2.3)*2023-02-01\n" ++
        "b*Merge pull request #7 from y**2023-01-15").toList =
        .ok (["v1.2.3".toList],
          [("v1.2.3".toList,
            ⟨"2023-02-01".toList,
              [⟨"2023-02-01".toList, "a".toList, "12".toList⟩,
               ⟨"2023-01-15".toList, "b".toList, "7".toList⟩], []⟩)]) ∧
      ((∀ t ∈ ["v1.2.3".toList], matchesTagName t = true) ∧
        (∀ k tag,
          (k, tag) ∈
              [("v1.2.3".toList,
                (⟨"2023-02-01".toList,
                  [⟨"2023-02-01".toList, "a".toList, "12".toList⟩,
                   ⟨"2023-01-15".toList, "b".toList, "7".toList⟩], []⟩ : Tag))] →
            matchesTagName k = true ∧ ∀ e ∈ tag.Logs, matchesPrNumber e.PrNumber = true)) :=
  ⟨by decide,
    getContent_shapes
      ("a*Merge pull request #12 from x* (tag: v1.2.3)*2023-02-01\n" ++
        "b*Merge pull request #7 from y**2023-01-15").toList
      ["v1.2.3".toList]
      [("v1.2.3".toList,
        ⟨"2023-02-01".toList,
          [⟨"2023-02-01".toList, "a".toList, "12".toList⟩,
           ⟨"2023-01-15".toList, "b".toList, "7".toList⟩], []⟩)]
      (by decide)⟩

/-- C7, as stated, fails: all three lines are well-formed and the tag-decorated
second line comes before the only merge-commit line, yet the first line, which
carries neither a tag nor a pull-request merge, ends the run in the fatal
error. -/
theorem getContent_fatal_before_tag :
    (∀ line ∈ splitLines ("a*Merge branch x**2023-01-16\n" ++
        "b*Release* (tag: v1.0)*2023-01-15\n" ++
        "c*Merge pull request #1 from y**2023-01-14").toList, wellFormedLine line) ∧
    tagBeforeMerge (splitLines ("a*Merge branch x**2023-01-16\n" ++
        "b*Release* (tag: v1.0)*2023-01-15\n" ++
        "c*Merge pull request #1 from y**2023-01-14").toList) = true ∧
    getContent ("a*Merge branch x**2023-01-16\n" ++
        "b*Release* (tag: v1.0)*2023-01-15\n" ++
        "c*Merge pull request #1 from y**2023-01-14").toList =
      .error (.fatal "Commit not after a tag") := by
  decide

/-- C7, amended: a well-formed raw log whose first line is tag-decorated is
accepted: the parser returns a tag sequence and a mapping, and ends neither in
the fatal error nor in a panic. -/
theorem getContent_first_line_tagged (logCommand : Str)
    (hw : ∀ line ∈ splitLines logCommand, wellFormedLine line)
    (hfirst : ∃ line rest, splitLines logCommand = line :: rest ∧ isTagLine line = true) :
    ∃ tagList logData, getContent logCommand = .ok (tagList, logData) := by
  obtain ⟨line, rest, hsplit, htag⟩ := hfirst
  rw [hsplit] at hw
  obtain ⟨st2, h2, hc2⟩ := processLine_progress initState line
    (hw line (List.mem_cons_self _ _)) (Or.inl htag)
  obtain ⟨st1, h1⟩ := processLines_progress rest st2
    (fun l hl => hw l (List.mem_cons_of_mem _ hl)) hc2
  refine ⟨st1.tagList, st1.logData, ?_⟩
  simp only [getContent, hsplit, processLines, h2, h1]

/-- C7, amended, at a raw log whose tagged first line is no pull-request merge. -/
theorem getContent_first_line_tagged_witness :
    ∃ tagList logData,
      getContent ("*Merge branch release* (tag: v2.0)*2023-02-01\n" ++
        "Fix bug*Merge pull request #42 from x**2023-01-15").toList = .ok (tagList, logData) :=
  getContent_first_line_tagged _ (by decide)
    ⟨"*Merge branch release* (tag: v2.0)*2023-02-01".toList,
      ["Fix bug*Merge pull request #42 from x**2023-01-15".toList], by decide, by decide⟩

/-- C8: on a well-formed line whose subject does not match the merge pattern,
the iteration either stops in the fatal error (no tag on the line and none
before) or returns a state with the mapping unchanged; and when the decoration
matches the tag pattern, it returns the state in which the captured name is the
current tag and is appended to the tag sequence, the mapping unchanged. -/
theorem processLine_no_merge (st : ParseState) (line : Str) (hw : wellFormedLine line)
    (hpr : isMergeLine line = false) :
    processLine st line =
        (match capturedTag line with
         | some t => .ok ⟨t, st.tagList ++ [t], st.logData⟩
         | none =>
           if st.currentTag = [] then .error (.fatal "Commit not after a tag") else .ok st) ∧
      (∀ st1, processLine st line = .ok st1 → st1.logData = st.logData) := by
  obtain ⟨field0, field3, heq⟩ := processLine_wellFormed st line hw
  have hnone : capturedPr line = none := by
    cases h : capturedPr line with
    | none => rfl
    | some pr => simp [isMergeLine, h] at hpr
  rw [hnone, trackTag_captured] at heq
  have key : processLine st line =
      (match capturedTag line with
       | some t => .ok ⟨t, st.tagList ++ [t], st.logData⟩
       | none =>
         if st.currentTag = [] then .error (.fatal "Commit not after a tag") else .ok st) := by
    rw [heq]
    cases capturedTag line <;> simp
  refine ⟨key, ?_⟩
  intro st1 h1
  rw [key] at h1
  cases hcap : capturedTag line with
  | some t =>
    rw [hcap] at h1
    cases h1
    rfl
  | none =>
    rw [hcap] at h1
    simp only at h1
    split at h1
    · cases h1
    · cases h1
      rfl

/-- C8 at a tagged line without pull-request merge, met after tag `v2.0`. -/
theorem processLine_no_merge_witness :
    processLine ⟨"v2.0".toList, ["v2.0".toList], []⟩ "b*Release* (tag: v1.0)*2023-01-15".toList =
        (match capturedTag "b*Release* (tag: v1.0)*2023-01-15".toList with
         | some t => .ok ⟨t, ["v2.0".toList] ++ [t], []⟩
         | none =>
           if "v2.0".toList = [] then .error (.fatal "Commit not after a tag")
           else .ok ⟨"v2.0".toList, ["v2.0".toList], []⟩) ∧
      (∀ st1, processLine ⟨"v2.0".toList, ["v2.0".toList], []⟩
          "b*Release* (tag: v1.0)*2023-01-15".toList = .ok st1 → st1.logData = []) :=
  processLine_no_merge ⟨"v2.0".toList, ["v2.0".toList], []⟩
    "b*Release* (tag: v1.0)*2023-01-15".toList (by decide) (by decide)

/-- C9, as stated, fails: for the path `a/https://github.com/b`, which has no
line break, the remote `git@github.com:a/https://github.com/b.git` resolves to
`https://github.com/b`, not to `https://github.com/` followed by the path. -/
theorem getGithubRepositoryUrl_greedy :
    '\n' ∉ "a/https://github.com/b".toList ∧
    getGithubRepositoryUrl
        "  Fetch URL: git@github.com:a/https://github.com/b.git\n".toList =
      .ok "https://github.com/b".toList ∧
    getGithubRepositoryUrl
        "  Fetch URL: git@github.com:a/https://github.com/b.git\n".toList ≠
      .ok ("https://github.com/".toList ++ "a/https://github.com/b".toList) := by
  decide

/-- C9, amended: on a fetch-URL line `pre ++ remote ++ post` (no line break in
`pre`; `post` empty or starting with a line break), for every path `p` without
a line break that contains neither `https://github.com/` nor `git@github.com:`,
the remotes `git@github.com:p.git` and `https://github.com/p.git` both resolve
to `https://github.com/` followed by `p`. -/
theorem getGithubRepositoryUrl_remote (pre p post : Str) (hpre : '\n' ∉ pre) (hp : '\n' ∉ p)
    (hpost : post = [] ∨ ∃ q, post = '\n' :: q)
    (h1 : containsLit "https://github.com/".toList p = false)
    (h2 : containsLit "git@github.com:".toList p = false) :
    getGithubRepositoryUrl
        (pre ++ ("git@github.com:".toList ++ (p ++ (".git".toList ++ post)))) =
      .ok ("https://github.com/".toList ++ p) ∧
    getGithubRepositoryUrl
        (pre ++ ("https://github.com/".toList ++ (p ++ (".git".toList ++ post)))) =
      .ok ("https://github.com/".toList ++ p) := by
  have hs := findUrl_of_urlMatchAt _ _
    (urlMatchAt_after pre _ _ hpre (urlMatchAt_ssh p post hp hpost h1 h2))
  have hh := findUrl_of_urlMatchAt _ _
    (urlMatchAt_after pre _ _ hpre (urlMatchAt_https p post hp hpost h1 h2))
  constructor
  · show (match findUrl (pre ++ ("git@github.com:".toList ++
        (p ++ '.' :: 'g' :: 'i' :: 't' :: post))) with
      | none => Except.error Failure.indexOutOfRange
      | some repo => Except.ok ("https://github.com/".toList ++ repo)) = _
    rw [hs]
  · show (match findUrl (pre ++ ("https://github.com/".toList ++
        (p ++ '.' :: 'g' :: 'i' :: 't' :: post))) with
      | none => Except.error Failure.indexOutOfRange
      | some repo => Except.ok ("https://github.com/".toList ++ repo)) = _
    rw [hh]

/-- C9 at the two remotes of the specification. -/
theorem getGithubRepositoryUrl_remote_witness :
    getGithubRepositoryUrl "  Fetch URL: git@github.com:org/repo.git\n".toList =
      .ok "https://github.com/org/repo".toList ∧
    getGithubRepositoryUrl "  Fetch URL: https://github.com/org/repo.git\n".toList =
      .ok "https://github.com/org/repo".toList :=
  getGithubRepositoryUrl_remote "  Fetch URL: ".toList "org/repo".toList "\n".toList
    (by decide) (by decide) (Or.inr ⟨[], rfl⟩) (by decide) (by decide)

/-- C10, the code at a remote on another host and at a GitHub remote without
the `.git` suffix: the pattern does not match, and indexing the nil match with
`[2]` is a run-time panic (exit status 2), not the handled fatal error (exit
status 1). -/
theorem getGithubRepositoryUrl_no_match :
    getGithubRepositoryUrl "  Fetch URL: https://gitlab.com/org/repo.git\n".toList =
      .error .indexOutOfRange ∧
    getGithubRepositoryUrl "  Fetch URL: https://github.com/org/repo\n".toList =
      .error .indexOutOfRange ∧
    exitStatus .indexOutOfRange = 2 := by
  decide

/-- C11: the outcome of `handleArgs` for every argument list and every state of
the `.git` directory: no argument is a fatal error (exit 1); a first argument
`help` or `-h` prints the usage line and exits with status 0; any other first
argument than `generate` or `-g` is a fatal error (exit 1); `generate` or `-g`
is a fatal error (exit 1) when `.git` cannot be read, and returns otherwise. -/
theorem handleArgs_outcome (args : List Str) (gitDirReadable : Bool) :
    (args = [] →
      handleArgs args gitDirReadable =
        .error (.failure (.fatal "Missing mandatory parameters")) ∧
      stopStatus (.failure (.fatal "Missing mandatory parameters")) = 1) ∧
    (∀ arg0 rest, args = arg0 :: rest → (arg0 = "help".toList ∨ arg0 = "-h".toList) →
      handleArgs args gitDirReadable =
        .error (.usage "> changelog-generator generate\n".toList) ∧
      stopStatus (.usage "> changelog-generator generate\n".toList) = 0) ∧
    (∀ arg0 rest, args = arg0 :: rest →
      arg0 ≠ "help".toList → arg0 ≠ "-h".toList →
      arg0 ≠ "generate".toList → arg0 ≠ "-g".toList →
      handleArgs args gitDirReadable = .error (.failure (.fatal "Unsupported command")) ∧
      stopStatus (.failure (.fatal "Unsupported command")) = 1) ∧
    (∀ arg0 rest, args = arg0 :: rest →
      (arg0 = "generate".toList ∨ arg0 = "-g".toList) → gitDirReadable = false →
      handleArgs args gitDirReadable =
        .error (.failure (.fatal "Unable to find git folder")) ∧
      stopStatus (.failure (.fatal "Unable to find git folder")) = 1) ∧
    (∀ arg0 rest, args = arg0 :: rest →
      (arg0 = "generate".toList ∨ arg0 = "-g".toList) → gitDirReadable = true →
      handleArgs args gitDirReadable = .ok ()) := by
  refine ⟨?_, ?_, ?_, ?_, ?_⟩
  · rintro rfl
    exact ⟨rfl, rfl⟩
  · rintro arg0 rest rfl h
    refine ⟨?_, rfl⟩
    simp only [handleArgs, if_pos h, help]
  · rintro arg0 rest rfl h1 h2 h3 h4
    refine ⟨?_, rfl⟩
    have hn : ¬ (arg0 = "help".toList ∨ arg0 = "-h".toList) := by
      rintro (h | h)
      · exact h1 h
      · exact h2 h
    simp only [handleArgs, if_neg hn, if_pos (And.intro h3 h4)]
  · rintro arg0 rest rfl h hgit
    refine ⟨?_, rfl⟩
    have hn : ¬ (arg0 = "help".toList ∨ arg0 = "-h".toList) := by
      rcases h with h | h <;> subst h <;> decide
    have hg : ¬ (arg0 ≠ "generate".toList ∧ arg0 ≠ "-g".toList) := by
      rintro ⟨h3, h4⟩
      rcases h with h | h
      · exact h3 h
      · exact h4 h
    simp only [handleArgs, if_neg hn, if_neg hg, if_pos hgit]
  · rintro arg0 rest rfl h hgit
    have hn : ¬ (arg0 = "help".toList ∨ arg0 = "-h".toList) := by
      rcases h with h | h <;> subst h <;> decide
    have hg : ¬ (arg0 ≠ "generate".toList ∧ arg0 ≠ "-g".toList) := by
      rintro ⟨h3, h4⟩
      rcases h with h | h
      · exact h3 h
      · exact h4 h
    have hgit2 : ¬ (gitDirReadable = false) := by simp [hgit]
    simp only [handleArgs, if_neg hn, if_neg hg, if_neg hgit2]

/-- C12, as stated, fails: with the one tag `v1.0`, whose record has the date
`x)`, blank line, `# Changelog`, blank line, `(`, the mapping has a record for
every tag and the remote resolves, yet the text written holds the header
twice. -/
theorem main_changelog_header_twice :
    getGithubRepositoryUrl "  Fetch URL: git@github.com:org/repo.git\n".toList =
      .ok "https://github.com/org/repo".toList ∧
    (∀ t ∈ ["v1.0".toList],
      mapGet [("v1.0".toList, ⟨"x)\n\n# Changelog\n\n(".toList, [], []⟩)] t ≠ none) ∧
    generate "# Changelog\n\n".toList ["v1.0".toList]
        [("v1.0".toList, ⟨"x)\n\n# Changelog\n\n(".toList, [], []⟩)]
        "abc123\n".toList "  Fetch URL: git@github.com:org/repo.git\n".toList =
      (("# Changelog\n\n" ++
        "## [v1.0](https://github.com/org/repo/tree/v1.0) (x)\n\n" ++
        "# Changelog\n\n" ++
        "()\n\n" ++
        "[Full Changelog](https://github.com/org/repo/compare/abc123...v1.0)\n\n" ++
        "\n\n").toList, none) ∧
    countLit "# Changelog\n\n".toList
        ("# Changelog\n\n" ++
          "## [v1.0](https://github.com/org/repo/tree/v1.0) (x)\n\n" ++
          "# Changelog\n\n" ++
          "()\n\n" ++
          "[Full Changelog](https://github.com/org/repo/compare/abc123...v1.0)\n\n" ++
          "\n\n").toList = 2 := by
  decide

/-- C12, amended: when the remote resolves to `baseUrl` and the mapping has a
record for every tag of the sequence, `generate`, called as `main` calls it on
the file that holds the header `# Changelog` and a blank line, leaves in the
file exactly the text of the specification: the header, then for each tag in
sequence order its heading, its comparison link line, one bullet per entry in
stored order, and the separator.  The header is written once, at the start:
what follows it are the sections, each of which starts with `## [`.  A run of
`main` on a raw log that parses to this sequence and mapping writes that text.
The header occurs exactly once in the text when the base URL, the first-commit
hash, the tag names and the dates, messages and pull-request numbers of their
records contain no line break. -/
theorem main_changelog (tagList : List Str) (logData : LogData)
    (revListCommand fetchUrlCommand baseUrl : Str)
    (hurl : getGithubRepositoryUrl fetchUrlCommand = .ok baseUrl)
    (h : ∀ t ∈ tagList, mapGet logData t ≠ none) :
    generate "# Changelog\n\n".toList tagList logData revListCommand fetchUrlCommand =
        (specChangelog baseUrl (getFirstCommit revListCommand) logData tagList, none) ∧
    (∀ logCommand, getContent logCommand = .ok (tagList, logData) →
      main logCommand revListCommand fetchUrlCommand =
        (specChangelog baseUrl (getFirstCommit revListCommand) logData tagList, none)) ∧
    (∀ i, i < tagList.length →
      ∃ rest, specSection baseUrl (getFirstCommit revListCommand) logData tagList i =
        "## [".toList ++ rest) ∧
    ('\n' ∉ baseUrl → '\n' ∉ getFirstCommit revListCommand →
      (∀ t ∈ tagList, '\n' ∉ t) →
      (∀ t ∈ tagList, ∀ record, mapGet logData t = some record →
        '\n' ∉ record.Date ∧ ∀ e ∈ record.Logs, '\n' ∉ e.Message ∧ '\n' ∉ e.PrNumber) →
      countLit "# Changelog\n\n".toList
        (specChangelog baseUrl (getFirstCommit revListCommand) logData tagList) = 1) := by
  have hgen : generate "# Changelog\n\n".toList tagList logData revListCommand fetchUrlCommand =
      (specChangelog baseUrl (getFirstCommit revListCommand) logData tagList, none) := by
    simp only [generate, hurl, generateLoop_spec _ _ _ _ _ h, specChangelog]
  refine ⟨hgen, ?_, specSection_heading _ _ _ _ h, ?_⟩
  · intro logCommand hparse
    simp only [main, hparse, hgen]
  · intro hb hf ht hr
    exact specChangelog_header_once _ _ _ _ hb hf ht hr

/-- C12, amended, at the sequence and mapping parsed from `sampleLog`, with the
text written out; the header occurs once in it. -/
theorem main_changelog_witness :
    specChangelog "https://github.com/org/repo".toList "abc123".toList sampleData sampleTags =
      ("# Changelog\n\n" ++
        "## [v2.0](https://github.com/org/repo/tree/v2.0) (2023-02-01)\n\n" ++
        "[Full Changelog](https://github.com/org/repo/compare/v1.0...v2.0)\n\n" ++
        "- Add parser [\\#12](https://github.com/org/repo/pull/12)\n" ++
        "- Fix bug [\\#7](https://github.com/org/repo/pull/7)\n" ++
        "\n\n" ++
        "## [v1.0](https://github.com/org/repo/tree/v1.0) (2023-01-10)\n\n" ++
        "[Full Changelog](https://github.com/org/repo/compare/abc123...v1.0)\n\n" ++
        "- First release [\\#3](https://github.com/org/repo/pull/3)\n" ++
        "\n\n").toList ∧
    getFirstCommit "abc123\n".toList = "abc123".toList ∧
    countLit "# Changelog\n\n".toList
      (specChangelog "https://github.com/org/repo".toList "abc123".toList sampleData
        sampleTags) = 1 ∧
    (generate "# Changelog\n\n".toList sampleTags sampleData "abc123\n".toList
          "  Fetch URL: git@github.com:org/repo.git\n".toList =
        (specChangelog "https://github.com/org/repo".toList
          (getFirstCommit "abc123\n".toList) sampleData sampleTags, none) ∧
      (∀ logCommand, getContent logCommand = .ok (sampleTags, sampleData) →
        main logCommand "abc123\n".toList "  Fetch URL: git@github.com:org/repo.git\n".toList =
          (specChangelog "https://github.com/org/repo".toList
            (getFirstCommit "abc123\n".toList) sampleData sampleTags, none)) ∧
      (∀ i, i < sampleTags.length →
        ∃ rest, specSection "https://github.com/org/repo".toList
            (getFirstCommit "abc123\n".toList) sampleData sampleTags i =
          "## [".toList ++ rest) ∧
      ('\n' ∉ "https://github.com/org/repo".toList →
        '\n' ∉ getFirstCommit "abc123\n".toList →
        (∀ t ∈ sampleTags, '\n' ∉ t) →
        (∀ t ∈ sampleTags, ∀ record, mapGet sampleData t = some record →
          '\n' ∉ record.Date ∧ ∀ e ∈ record.Logs, '\n' ∉ e.Message ∧ '\n' ∉ e.PrNumber) →
        countLit "# Changelog\n\n".toList
          (specChangelog "https://github.com/org/repo".toList
            (getFirstCommit "abc123\n".toList) sampleData sampleTags) = 1)) :=
  ⟨by decide, by decide, by decide,
    main_changelog sampleTags sampleData "abc123\n".toList
      "  Fetch URL: git@github.com:org/repo.git\n".toList "https://github.com/org/repo".toList
      (by decide) (by decide)⟩

/-- C13: in the mapping returned for an accepted raw log, every record has a
first entry, the date of the record is the date of that entry, and the entries
of the record are the entries that the lines attribute to its tag, top to
bottom; so the date is the trimmed field 3 of the first merge-commit line
attributed to the tag. -/
theorem getContent_dated_by_first (logCommand : Str) (tagList : List Str) (logData : LogData)
    (h : getContent logCommand = .ok (tagList, logData)) :
    ∀ k tag, (k, tag) ∈ logData →
      ∃ e rest, tag.Logs = e :: rest ∧ tag.Date = e.Date ∧
        entriesOf k [] (splitLines logCommand) = e :: rest := by
  obtain ⟨st, hst, htags, hdata⟩ := getContent_ok_inv _ _ _ h
  have hinv := processLines_recordsOk _ _ _ recordsOk_initState hst
  have hlogs := processLines_logs _ _ _ hst
  subst htags hdata
  intro k tag hmem
  obtain ⟨e, rest, h1, h2⟩ := (hinv.2.2 k tag hmem).2
  refine ⟨e, rest, h1, h2, ?_⟩
  have := hlogs k
  simp only [logsOf, mapGet_of_mem _ _ _ hinv.1 hmem, initState, mapGet, List.nil_append] at this
  rw [← this, h1]

/-- C13 at `sampleLog`: the record of `v2.0` keeps the date of its first entry
when the second one is appended. -/
theorem getContent_dated_by_first_witness :
    getContent sampleLog = .ok (sampleTags, sampleData) ∧
    ∀ k tag, (k, tag) ∈ sampleData →
      ∃ e rest, tag.Logs = e :: rest ∧ tag.Date = e.Date ∧
        entriesOf k [] (splitLines sampleLog) = e :: rest :=
  ⟨by decide, getContent_dated_by_first sampleLog sampleTags sampleData (by decide)⟩

/-- C14: `generate` leaves the tag sequence and the mapping as it found them,
so a second run on what the first run left, with the file as it was, gives the
same file text and the same end; and the result depends on the mapping only
through the records of the tags in the sequence: two mappings with the same
records for them give the same text. -/
theorem generate_deterministic (fh : Str) (tagList : List Str) (logData : LogData)
    (revListCommand fetchUrlCommand : Str) :
    (generateVars ⟨tagList, logData, fh⟩ revListCommand fetchUrlCommand).1.tagList = tagList ∧
    (generateVars ⟨tagList, logData, fh⟩ revListCommand fetchUrlCommand).1.logData = logData ∧
    ((generateVars ⟨tagList, logData, fh⟩ revListCommand fetchUrlCommand).1.fh,
        (generateVars ⟨tagList, logData, fh⟩ revListCommand fetchUrlCommand).2) =
      generate fh tagList logData revListCommand fetchUrlCommand ∧
    generateVars
        ⟨(generateVars ⟨tagList, logData, fh⟩ revListCommand fetchUrlCommand).1.tagList,
          (generateVars ⟨tagList, logData, fh⟩ revListCommand fetchUrlCommand).1.logData, fh⟩
        revListCommand fetchUrlCommand =
      generateVars ⟨tagList, logData, fh⟩ revListCommand fetchUrlCommand ∧
    (∀ logData2, (∀ t ∈ tagList, mapGet logData2 t = mapGet logData t) →
      generate fh tagList logData2 revListCommand fetchUrlCommand =
        generate fh tagList logData revListCommand fetchUrlCommand) := by
  refine ⟨?_, ?_, ?_, ?_, ?_⟩
  · rw [generateVars_eq]
  · rw [generateVars_eq]
  · rw [generateVars_eq]
  · simp only [generateVars_eq]
  · intro logData2 h
    simp only [generate]
    cases getGithubRepositoryUrl fetchUrlCommand with
    | error e => rfl
    | ok baseUrl => exact generateLoop_congr _ _ _ _ _ _ h

/-- C15: on a raw log whose lines all have at least four fields, the parser
ends in the fatal error `Commit not after a tag` exactly when the first line is
not tag-decorated; an iteration that starts with a current tag returns with a
current tag, and never ends in the fatal error. -/
theorem getContent_fatal_iff (logCommand : Str)
    (hw : ∀ line ∈ splitLines logCommand, wellFormedLine line) :
    (getContent logCommand = .error (.fatal "Commit not after a tag") ↔
      ∃ line rest, splitLines logCommand = line :: rest ∧ isTagLine line = false) ∧
    (∀ st line st1, st.currentTag ≠ [] → processLine st line = .ok st1 →
      st1.currentTag ≠ []) ∧
    (∀ st line msg, st.currentTag ≠ [] → processLine st line ≠ .error (.fatal msg)) := by
  refine ⟨?_, ?_, ?_⟩
  · cases hsplit : splitLines logCommand with
    | nil =>
      constructor
      · intro h
        simp [getContent, hsplit, processLines] at h
      · rintro ⟨line, rest, h, _⟩
        cases h
    | cons line rest =>
      rw [hsplit] at hw
      have hwl := hw line (List.mem_cons_self _ _)
      have hwr : ∀ l ∈ rest, wellFormedLine l := fun l hl => hw l (List.mem_cons_of_mem _ hl)
      constructor
      · intro h
        refine ⟨line, rest, rfl, ?_⟩
        cases htag : isTagLine line with
        | false => rfl
        | true =>
          exfalso
          obtain ⟨st2, h2, hc2⟩ := processLine_progress initState line hwl (Or.inl htag)
          obtain ⟨st1, h1⟩ := processLines_progress rest st2 hwr hc2
          simp [getContent, hsplit, processLines, h2, h1] at h
      · rintro ⟨line1, rest1, heq, htag⟩
        cases heq
        rcases processLine_wellFormed_cases initState line hwl with ⟨h, _, _⟩ | ⟨st2, h2⟩
        · simp only [getContent, hsplit, processLines, h]
        · exfalso
          obtain ⟨hg, _, _, _⟩ := processLine_ok_inv _ _ _ h2
          cases hcap : capturedTag line with
          | none => exact hg hcap rfl
          | some t => simp [isTagLine, hcap] at htag
  · intro st line st1 hcur h
    obtain ⟨hg, hc, _, _⟩ := processLine_ok_inv _ _ _ h
    rw [hc]
    cases hcap : capturedTag line with
    | none => exact hcur
    | some t => exact ne_nil_of_matchesTagName t (capturedTag_matches _ _ hcap)
  · intro st line msg hcur h
    exact hcur (processLine_fatal_inv _ _ _ h).2

/-- C15 at a two-line raw log whose first line carries no tag: the run ends in
the fatal error. -/
theorem getContent_fatal_iff_witness :
    getContent ("Fix bug*Merge pull request #7 from y/fix**2023-01-20\n" ++
        "*Merge branch hotfix* (tag: v1.0)*2023-01-15").toList =
      .error (.fatal "Commit not after a tag") :=
  (getContent_fatal_iff
    ("Fix bug*Merge pull request #7 from y/fix**2023-01-20\n" ++
      "*Merge branch hotfix* (tag: v1.0)*2023-01-15").toList (by decide)).1.mpr
    ⟨"Fix bug*Merge pull request #7 from y/fix**2023-01-20".toList,
      ["*Merge branch hotfix* (tag: v1.0)*2023-01-15".toList], by decide, by decide⟩

/-- C16: for an accepted raw log and every tag name `t`, the entries stored
under `t` are, in raw-log order, the entries (date = trimmed field 3, message =
trimmed field 0, number = captured digits) of exactly the merge-commit lines
whose current tag is `t`. -/
theorem getContent_entries (logCommand : Str) (tagList : List Str) (logData : LogData)
    (h : getContent logCommand = .ok (tagList, logData)) (t : Str) :
    logsOf logData t = entriesOf t [] (splitLines logCommand) := by
  obtain ⟨st, hst, htags, hdata⟩ := getContent_ok_inv _ _ _ h
  have := processLines_logs _ _ _ hst t
  subst htags hdata
  simpa [logsOf, initState, mapGet] using this

/-- C16 at `sampleLog` and the tag `v2.0`: its two entries, in the order of the
lines. -/
theorem getContent_entries_witness :
    entriesOf "v2.0".toList [] (splitLines sampleLog) =
      [⟨"2023-02-01".toList, "Add parser".toList, "12".toList⟩,
       ⟨"2023-01-20".toList, "Fix bug".toList, "7".toList⟩] ∧
    logsOf sampleData "v2.0".toList = entriesOf "v2.0".toList [] (splitLines sampleLog) :=
  ⟨by decide, getContent_entries sampleLog sampleTags sampleData (by decide) "v2.0".toList⟩

/-- C17, the code at the empty raw log (no merge commit reachable from a tag)
and at a raw log whose second commit has a body of two lines: the first field
access `splitLine[2]` is out of range, a run-time panic (exit status 2), not
the handled fatal error. -/
theorem getContent_panics :
    getContent [] = .error .indexOutOfRange ∧
    getContent ("Fix bug*Merge pull request #42 from x* (tag: v1.0)*2023-01-15\n" ++
      "first line of the body\n" ++
      "second line*Merge pull request #41 from y**2023-01-14").toList =
      .error .indexOutOfRange ∧
    exitStatus .indexOutOfRange = 2 := by
  decide

/-- C18: on a raw log whose lines all contain at least three `*`, the fields
0, 1, 2 and 3 of every split line exist, and the parser either returns or ends
in the fatal error `Commit not after a tag`: it does not panic. -/
theorem getContent_fields_in_range (logCommand : Str)
    (hs : ∀ line ∈ splitLines logCommand, 3 ≤ line.count '*') :
    (∀ line ∈ splitLines logCommand, ∀ i, i ≤ 3 → ∃ field, (splitStar 6 line)[i]? = some field) ∧
    ((∃ tagList logData, getContent logCommand = .ok (tagList, logData)) ∨
      getContent logCommand = .error (.fatal "Commit not after a tag")) := by
  have hw : ∀ line ∈ splitLines logCommand, wellFormedLine line :=
    fun line hl => wellFormedLine_of_stars line (hs line hl)
  constructor
  · intro line hl i hi
    have := hw line hl
    unfold wellFormedLine at this
    have hlt : i < (splitStar 6 line).length := by omega
    exact ⟨_, List.getElem?_eq_getElem hlt⟩
  · rcases processLines_wellFormed_cases (splitLines logCommand) initState hw with h | ⟨st1, h⟩
    · right
      simp only [getContent, h]
    · left
      exact ⟨st1.tagList, st1.logData, by simp only [getContent, h]⟩

/-- C18 at `sampleLog`, whose lines have three `*` each. -/
theorem getContent_fields_in_range_witness :
    (∀ line ∈ splitLines sampleLog, 3 ≤ line.count '*') ∧
    (∀ line ∈ splitLines sampleLog, ∀ i, i ≤ 3 →
      ∃ field, (splitStar 6 line)[i]? = some field) ∧
    ((∃ tagList logData, getContent sampleLog = .ok (tagList, logData)) ∨
      getContent sampleLog = .error (.fatal "Commit not after a tag")) :=
  ⟨by decide, getContent_fields_in_range sampleLog (by decide)⟩

/-- C19: every key of the mapping returned for an accepted raw log is a name of
the returned tag sequence, so the renderer, which visits every name of the
sequence, reaches every stored entry. -/
theorem getContent_keys_listed (logCommand : Str) (tagList : List Str) (logData : LogData)
    (h : getContent logCommand = .ok (tagList, logData)) :
    ∀ k tag, (k, tag) ∈ logData → k ∈ tagList := by
  obtain ⟨st, hst, htags, hdata⟩ := getContent_ok_inv _ _ _ h
  have hinv := processLines_recordsOk _ _ _ recordsOk_initState hst
  subst htags hdata
  intro k tag hmem
  exact (hinv.2.2 k tag hmem).1

/-- C19 at `sampleLog`. -/
theorem getContent_keys_listed_witness :
    getContent sampleLog = .ok (sampleTags, sampleData) ∧
    ∀ k tag, (k, tag) ∈ sampleData → k ∈ sampleTags :=
  ⟨by decide, getContent_keys_listed sampleLog sampleTags sampleData (by decide)⟩

end Changelogger
